import Mathlib

/-!
Verification development for the lightspeeed-scraper news-ingestion pipeline.

Shallow embedding of the core operations of the repository:
strings are modelled as `List Char`, wall-clock instants as rationals
(seconds), database tables as lists of rows, and exceptions as `Except`
carrying the error message.  Each definition is translated from the
corresponding Python function of the source tree; doc comments name the
source location.
-/

namespace Scraper

/-- Python `str.lower()` (ASCII case folding; the strings handled by the
retry / URL machinery are ASCII). -/
def lowerStr (s : List Char) : List Char := s.map Char.toLower

/-- Python `pat in s` — substring containment. -/
def isSub (pat s : List Char) : Bool := decide (pat <:+: s)

/-- Python `s.startswith (pat)`. -/
def startsW (pat s : List Char) : Bool := decide (pat <+: s)

/-- Python `s.endswith (pat)`. -/
def endsW (pat s : List Char) : Bool := decide (pat <:+ s)

theorem isSub_iff (pat s : List Char) : isSub pat s = true ↔ pat <:+: s := by
  simp [isSub]

end Scraper

namespace HeadlineDB

open Scraper

/-- The unique-constraint marker tested by `retry_with_backoff`
(src/headline_api/db.py line 70). -/
def dupMarker : List Char := "duplicate key value violates unique constraint".data

/-- The transient-error markers tested by `retry_with_backoff`
(src/headline_api/db.py line 78). -/
def connTerms : List (List Char) :=
  ["timeout".data, "connection".data, "reset".data, "network".data]

def isConnErr (msg : List Char) : Bool := connTerms.any fun t => isSub t msg

/-- The body of `retry_with_backoff`'s wrapper (src/headline_api/db.py
lines 61-93).  `f attempt` is the outcome of the wrapped operation on the
given attempt (`Except.error` carries the exception message).  Returns the
final outcome together with the list of back-off sleeps performed
(`time.sleep(delay)` with `delay = base_delay * 2 ** attempt`).  The loop
iterates over `range(max_retries + 1)`; the `[]` case is Python's
unreachable `return None` after the loop. -/
def retryLoop {α : Type} (f : Nat → Except (List Char) α)
    (baseDelay : ℚ) (maxRetries : Nat) :
    List Nat → Except (List Char) α × List ℚ
  | [] => (Except.error [], [])
  | attempt :: rest =>
    match f attempt with
    | Except.ok v => (Except.ok v, [])
    | Except.error e =>
      let errorStr := lowerStr e
      if isSub dupMarker errorStr then (Except.error e, [])
      else if attempt = maxRetries then (Except.error e, [])
      else if isConnErr errorStr then
        let r := retryLoop f baseDelay maxRetries rest
        (r.1, baseDelay * 2 ^ attempt :: r.2)
      else (Except.error e, [])

/-- `@retry_with_backoff(max_retries=3, base_delay=1.0)` as applied to the
store operations (src/headline_api/db.py lines 53-94, 133, 172, ...). -/
def retry_with_backoff {α : Type} (f : Nat → Except (List Char) α) :
    Except (List Char) α × List ℚ :=
  retryLoop f 1 3 (List.range 4)

/-- The retry policy exactly as the specification words it: on exception,
lower-case the message; a unique-constraint marker propagates immediately;
else a transient marker with retries remaining sleeps `base * 2 ^ attempt`
and retries; else the exception propagates (in particular the last
exception propagates once retries are exhausted). -/
def retrySpecPolicy {α : Type} (f : Nat → Except (List Char) α)
    (baseDelay : ℚ) (maxRetries : Nat) :
    List Nat → Except (List Char) α × List ℚ
  | [] => (Except.error [], [])
  | attempt :: rest =>
    match f attempt with
    | Except.ok v => (Except.ok v, [])
    | Except.error e =>
      let errorStr := lowerStr e
      if isSub dupMarker errorStr then (Except.error e, [])
      else if isConnErr errorStr = true ∧ attempt < maxRetries then
        let r := retrySpecPolicy f baseDelay maxRetries rest
        (r.1, baseDelay * 2 ^ attempt :: r.2)
      else (Except.error e, [])

theorem retryLoop_eq_spec {α : Type} (f : Nat → Except (List Char) α)
    (baseDelay : ℚ) (maxRetries : Nat) (l : List Nat)
    (hl : ∀ a ∈ l, a ≤ maxRetries) :
    retryLoop f baseDelay maxRetries l = retrySpecPolicy f baseDelay maxRetries l := by
  induction l with
  | nil => rfl
  | cons attempt rest ih =>
    have hle : attempt ≤ maxRetries := hl attempt (List.mem_cons_self _ _)
    have hrest : ∀ a ∈ rest, a ≤ maxRetries := fun a ha => hl a (List.mem_cons_of_mem _ ha)
    simp only [retryLoop, retrySpecPolicy]
    cases hf : f attempt with
    | ok v => rfl
    | error e =>
      simp only []
      by_cases hdup : isSub dupMarker (lowerStr e) = true
      · simp [hdup]
      · simp only [Bool.not_eq_true] at hdup
        by_cases heq : attempt = maxRetries
        · subst heq
          simp [hdup, Nat.lt_irrefl]
        · have hlt : attempt < maxRetries := lt_of_le_of_ne hle heq
          by_cases hconn : isConnErr (lowerStr e) = true
          · simp [hdup, heq, hconn, hlt, ih hrest]
          · simp only [Bool.not_eq_true] at hconn
            simp [hdup, heq, hconn, hlt]

theorem retryLoop_sleeps_prefix {α : Type} (f : Nat → Except (List Char) α)
    (baseDelay : ℚ) (maxRetries : Nat) (l : List Nat)
    (hl : ∀ a ∈ l, a ≤ maxRetries) :
    (retryLoop f baseDelay maxRetries l).2 <+:
      (l.filter (fun a => decide (a < maxRetries))).map (fun a => baseDelay * 2 ^ a) := by
  induction l with
  | nil => simp [retryLoop]
  | cons attempt rest ih =>
    have hle : attempt ≤ maxRetries := hl attempt (List.mem_cons_self _ _)
    have hrest : ∀ a ∈ rest, a ≤ maxRetries := fun a ha => hl a (List.mem_cons_of_mem _ ha)
    simp only [retryLoop]
    cases hf : f attempt with
    | ok v => simp
    | error e =>
      simp only []
      by_cases hdup : isSub dupMarker (lowerStr e) = true
      · simp [hdup]
      · simp only [Bool.not_eq_true] at hdup
        by_cases heq : attempt = maxRetries
        · simp [hdup, heq]
        · have hlt : attempt < maxRetries := lt_of_le_of_ne hle heq
          by_cases hconn : isConnErr (lowerStr e) = true
          · simp only [hdup, heq, hconn, if_true, if_false, Bool.false_eq_true]
            rw [List.filter_cons_of_pos (by simpa using hlt), List.map_cons]
            exact List.cons_prefix_cons.mpr ⟨rfl, ih hrest⟩
          · simp only [Bool.not_eq_true] at hconn
            simp [hdup, heq, hconn]

/-- C9: the retry wrapper around retryable store operations propagates a
unique-constraint-violation exception immediately, retries transient
exceptions (message containing timeout / connection / reset / network)
with exponential back-off sleeps of `1 * 2 ^ attempt` seconds while
retries remain (at most 3 retries), propagates any other exception
immediately, and after exhausting retries propagates the last exception.
Formally: the code's loop coincides with the policy as the spec words it,
and its sleep schedule is always a prefix of `[1, 2, 4]` seconds. -/
theorem claim9_retry_with_backoff_policy {α : Type} (f : Nat → Except (List Char) α) :
    retry_with_backoff f = retrySpecPolicy f 1 3 (List.range 4) ∧
    (retry_with_backoff f).2 <+: ([1, 2, 4] : List ℚ) := by
  refine ⟨retryLoop_eq_spec f 1 3 (List.range 4) (by decide), ?_⟩
  have h := retryLoop_sleeps_prefix f 1 3 (List.range 4) (by decide)
  have hr : ((List.range 4).filter (fun a => decide (a < 3))).map
      (fun a => (1 : ℚ) * 2 ^ a) = [1, 2, 4] := by
    norm_num [List.range_succ]
  rw [hr] at h
  exact h

/-! ### Processed-URL set (src/headline_api/db.py lines 386-469) -/

/-- `ProcessedUrlStatus` (src/headline_api/models.py lines 26-29). -/
inductive ProcessedUrlStatus where
  | trash
  | processed
deriving DecidableEq, Repr

/-- A row of the `processed_news_urls` table (columns written by
`save_processed_url`). -/
structure ProcessedUrlRow where
  url : List Char
  city : List Char
  scrapeDate : ℤ
  isNews : Bool
  processingStatus : List Char
deriving DecidableEq, Repr

/-- The `processed_news_urls` table, insertion-ordered. -/
abbrev ProcessedUrlsTable := List ProcessedUrlRow

/-- The `status_map` of `check_processed_url` (src/headline_api/db.py
lines 407-414): maps the stored `processing_status` string back to a
`ProcessedUrlStatus`; anything else (e.g. "pending") maps to `None`. -/
def checkStatusMap (s : List Char) : Option ProcessedUrlStatus :=
  if s = "trash".data then some ProcessedUrlStatus.trash
  else if s = "done".data then some ProcessedUrlStatus.processed
  else if s = "processed".data then some ProcessedUrlStatus.processed
  else none

/-- `check_processed_url` (src/headline_api/db.py lines 386-420):
`SELECT processing_status FROM processed_news_urls WHERE url = %s` (the
`url` column is unique, so the first matching row is the row), then map
through `status_map`. -/
def check_processed_url (db : ProcessedUrlsTable) (url : List Char) :
    Option ProcessedUrlStatus :=
  match db.find? (fun r => decide (r.url = url)) with
  | some r => checkStatusMap r.processingStatus
  | none => none

/-- The `status_map` of `save_processed_url` (src/headline_api/db.py lines
436-439, 451).  The Python dict is keyed by the `str`-mixin enum members
and is looked up with `status.value`; a `str` enum member hashes and
compares equal to its value string, so the lookup hits and the "pending"
default is never used. -/
def saveStatusStr : ProcessedUrlStatus → List Char
  | ProcessedUrlStatus.trash => "trash".data
  | ProcessedUrlStatus.processed => "processed".data

/-- The error message PostgreSQL raises on a unique-key violation of the
`url` column's constraint. -/
def pgDupUrlMsg : List Char :=
  ("duplicate key value violates unique constraint " ++
    "\"processed_news_urls_url_key\"").data

/-- `INSERT INTO processed_news_urls ...` against a table whose `url`
column carries a unique constraint: raises the duplicate-key error when a
row with the same url exists, else appends the row. -/
def pgInsertProcessedUrl (db : ProcessedUrlsTable) (row : ProcessedUrlRow) :
    Except (List Char) ProcessedUrlsTable :=
  if db.any (fun r => decide (r.url = row.url)) then Except.error pgDupUrlMsg
  else Except.ok (db ++ [row])

/-- `save_processed_url` (src/headline_api/db.py lines 422-469): insert a
row `(url, city, now, is_news, processing_status)`; on an exception whose
message contains both `"duplicate key value violates unique constraint"`
and `"processed_news_urls_url_key"`, roll back and return normally (the
table is left unchanged); any other exception is re-raised. -/
def savedRow (url : List Char) (status : ProcessedUrlStatus) (city : List Char)
    (now : ℤ) : ProcessedUrlRow :=
  { url := url, city := city, scrapeDate := now,
    isNews := decide (status ≠ ProcessedUrlStatus.trash),
    processingStatus := saveStatusStr status }

def save_processed_url (db : ProcessedUrlsTable) (url : List Char)
    (status : ProcessedUrlStatus) (city : List Char) (now : ℤ) :
    Except (List Char) ProcessedUrlsTable :=
  match pgInsertProcessedUrl db (savedRow url status city now) with
  | Except.ok db' => Except.ok db'
  | Except.error e =>
    if isSub dupMarker e = true ∧ isSub "processed_news_urls_url_key".data e = true then
      Except.ok db
    else Except.error e

/-- C8 counterexample: when the url is already recorded (here with status
TRASH), a further `save_processed_url(u, PROCESSED, city)` still succeeds
(the unique-key violation is swallowed), yet `check_processed_url(u)`
returns the old status TRASH, not the status just saved.  This refutes
"after save_processed_url(u, s, city) succeeds, check_processed_url(u)
returns s" as universally stated. -/
theorem claim8_save_check_counterexample :
    save_processed_url
        [{ url := "http://example.com/a".data, city := "unknown".data,
           scrapeDate := 0, isNews := false, processingStatus := "trash".data }]
        "http://example.com/a".data ProcessedUrlStatus.processed "unknown".data 1 =
      Except.ok
        [{ url := "http://example.com/a".data, city := "unknown".data,
           scrapeDate := 0, isNews := false, processingStatus := "trash".data }] ∧
    check_processed_url
        [{ url := "http://example.com/a".data, city := "unknown".data,
           scrapeDate := 0, isNews := false, processingStatus := "trash".data }]
        "http://example.com/a".data ≠ some ProcessedUrlStatus.processed := by
  refine ⟨rfl, by decide⟩

/-- C8 (amended): *for a url not already recorded*, `save_processed_url`
succeeds, `check_processed_url` then returns exactly the saved status
(TRASH maps back to TRASH, PROCESSED maps back to PROCESSED), and any
second `save_processed_url` on the same url does not raise: the
unique-key violation is swallowed silently and the stored row is left
unchanged. -/
theorem claim8_save_then_check (db : ProcessedUrlsTable) (u : List Char)
    (s : ProcessedUrlStatus) (city : List Char) (now : ℤ)
    (hfresh : ∀ r ∈ db, r.url ≠ u) :
    ∃ db', save_processed_url db u s city now = Except.ok db' ∧
      check_processed_url db' u = some s ∧
      ∀ s' city' now', save_processed_url db' u s' city' now' = Except.ok db' := by
  have hany : db.any (fun r => decide (r.url = u)) = false := by
    rw [List.any_eq_false]
    intro r hr
    simpa using hfresh r hr
  have hfind : db.find? (fun r => decide (r.url = u)) = none := by
    rw [List.find?_eq_none]
    intro r hr
    simpa using hfresh r hr
  refine ⟨db ++ [savedRow u s city now], ?_, ?_, ?_⟩
  · simp [save_processed_url, pgInsertProcessedUrl, savedRow, hany]
  · rw [check_processed_url, List.find?_append, hfind]
    cases s <;> simp [List.find?, checkStatusMap, saveStatusStr, savedRow]
  · intro s' city' now'
    have hdup : isSub dupMarker pgDupUrlMsg = true ∧
        isSub "processed_news_urls_url_key".data pgDupUrlMsg = true := by decide
    have hhit : (db ++ [savedRow u s city now]).any
        (fun r => decide (r.url = (savedRow u s' city' now').url)) = true := by
      rw [List.any_eq_true]
      exact ⟨savedRow u s city now, by simp [savedRow]⟩
    simp [save_processed_url, pgInsertProcessedUrl, hhit, hdup]

/-- C8 witness: concrete instance of `claim8_save_then_check` on the empty
table. -/
theorem claim8_save_then_check_witness :
    ∃ db', save_processed_url [] "http://example.com/b".data
        ProcessedUrlStatus.trash "seattle".data 2 = Except.ok db' ∧
      check_processed_url db' "http://example.com/b".data =
        some ProcessedUrlStatus.trash ∧
      ∀ s' city' now', save_processed_url db' "http://example.com/b".data s' city' now' =
        Except.ok db' :=
  claim8_save_then_check [] "http://example.com/b".data ProcessedUrlStatus.trash
    "seattle".data 2 (by simp)

end HeadlineDB

namespace LinkCollector

/-!
### Diffbot key manager
(src/headline_worker/modules/link_collector.py lines 18-115)

`DiffbotKeyManager.get_key` runs entirely under the manager's lock.  Keys
are identified by naturals; wall-clock instants are integers (seconds);
`usage` maps each key to its list of issuance timestamps (appended at the
end, as in Python).  `random.choice(least_used_keys)` is modelled by an
arbitrary index `pick` reduced modulo the list length.
-/

abbrev Key := Nat

structure KeyManagerState where
  keys : List Key
  usage : Key → List ℤ

/-- Outcome of one `get_key` invocation. -/
inductive GetKeyOutcome where
  | issued (k : Key)
  /-- `available_keys[0]` (or `random.choice`) applied to an empty list:
  the call raises `IndexError`. -/
  | indexError
  /-- The `wait_seconds > 0` path: `asyncio.sleep(wait_seconds)` executed
  while still holding `self._lock`, followed by a recursive retry. -/
  | sleepRetry (wait : ℤ)
deriving DecidableEq, Repr

/-- The prune step (link_collector.py lines 67-68): for every managed key,
keep only timestamps strictly newer than `now - 1 minute`. -/
def pruneAll (keys : List Key) (now : ℤ) (u : Key → List ℤ) : Key → List ℤ :=
  fun k => if k ∈ keys then (u k).filter (fun t => decide (now - 60 < t)) else u k

/-- The `earliest_available` computation (lines 78-83): start from `now`;
for each used key let `earliest = min(usage[key]) + 60`; keep it only if
it is strictly below the accumulator. -/
def earliestFold (u : Key → List ℤ) : List Key → ℤ → ℤ
  | [], acc => acc
  | k :: ks, acc =>
    match (u k).min? with
    | none => earliestFold u ks acc
    | some m => earliestFold u ks (if m + 60 < acc then m + 60 else acc)

/-- `DiffbotKeyManager.get_key` (lines 50-105).  Returns the outcome and
the manager state as left by the call (the prune mutation persists even
when the call raises). -/
def get_key (st : KeyManagerState) (now : ℤ) (pick : Nat) :
    GetKeyOutcome × KeyManagerState :=
  let u := pruneAll st.keys now st.usage
  let availableKeys := st.keys.filter fun k => decide ((u k).length < 5)
  if availableKeys.isEmpty then
    let earliestAvailable := earliestFold u st.keys now
    let waitSeconds := earliestAvailable - now
    if 0 < waitSeconds then
      (GetKeyOutcome.sleepRetry waitSeconds, { st with usage := u })
    else
      (GetKeyOutcome.indexError, { st with usage := u })
  else
    let sorted := availableKeys.insertionSort fun a b => (u a).length ≤ (u b).length
    let leastUsage := (u (sorted.headD 0)).length
    let leastUsedKeys := sorted.filter fun k => decide ((u k).length = leastUsage)
    if leastUsedKeys.isEmpty then (GetKeyOutcome.indexError, { st with usage := u })
    else
      let selected := leastUsedKeys.getD (pick % leastUsedKeys.length) 0
      (GetKeyOutcome.issued selected,
        { st with usage := fun k => if k = selected then u k ++ [now] else u k })

/-- The fresh manager (`usage = {key: [] for key in keys}`). -/
def initialState (keys : List Key) : KeyManagerState :=
  { keys := keys, usage := fun _ => [] }

/-- The key handed back by one call, if any. -/
def issuedKey : GetKeyOutcome → Option Key
  | GetKeyOutcome.issued k => some k
  | _ => none

/-- A sequence of `get_key` calls: for each `(now, pick)` perform one call
and log `(now, issued key?)`. -/
def runGetKeys (st : KeyManagerState) :
    List (ℤ × Nat) → KeyManagerState × List (ℤ × Option Key)
  | [] => (st, [])
  | (now, pick) :: rest =>
    let r := get_key st now pick
    let rr := runGetKeys r.2 rest
    (rr.1, (now, issuedKey r.1) :: rr.2)

/-- After the prune, every usage entry of every managed key is strictly
newer than `now - 60`, so each candidate `min(usage[key]) + 60` exceeds
`now`; since the fold only lowers its accumulator, `earliest_available`
stays at its initialiser `now`. -/
theorem earliestFold_eq_now (u : Key → List ℤ) (now : ℤ) (ks : List Key)
    (h : ∀ k ∈ ks, ∀ m ∈ u k, now - 60 < m) :
    earliestFold u ks now = now := by
  induction ks with
  | nil => rfl
  | cons k ks ih =>
    simp only [earliestFold]
    cases hm : (u k).min? with
    | none => exact ih fun k' hk' => h k' (List.mem_cons_of_mem _ hk')
    | some m =>
      have hmem : m ∈ u k := List.min?_mem (fun a b => min_choice a b) hm
      have hnl : ¬ m + 60 < now := by
        have := h k (List.mem_cons_self _ _) m hmem
        linarith
      change earliestFold u ks (if m + 60 < now then m + 60 else now) = now
      rw [if_neg hnl]
      exact ih fun k' hk' => h k' (List.mem_cons_of_mem _ hk')

theorem pruned_entries_recent (st : KeyManagerState) (now : ℤ) :
    ∀ k ∈ st.keys, ∀ m ∈ pruneAll st.keys now st.usage k, now - 60 < m := by
  intro k hk m hm
  simp only [pruneAll, if_pos hk] at hm
  simpa using (List.mem_filter.mp hm).2

/-- The `wait_seconds > 0` sleep-and-retry branch of `get_key` is dead
code: `earliest_available` can never drop below its initialiser `now`. -/
theorem get_key_never_sleeps (st : KeyManagerState) (now : ℤ) (pick : Nat) (w : ℤ) :
    (get_key st now pick).1 ≠ GetKeyOutcome.sleepRetry w := by
  simp only [get_key]
  by_cases hsat : (st.keys.filter fun k =>
      decide ((pruneAll st.keys now st.usage k).length < 5)).isEmpty
  · simp only [hsat, if_true]
    rw [earliestFold_eq_now _ _ _ (pruned_entries_recent st now)]
    simp
  · simp only [hsat, Bool.false_eq_true, if_false]
    split
    · simp
    · simp

/-- When every managed key already has 5 in-window uses, `get_key` does
not sleep and does not return a key: it falls through the
`wait_seconds > 0` guard (the wait is 0) and evaluates
`available_keys[0]` on an empty list, raising `IndexError`. -/
theorem get_key_saturated_raises (st : KeyManagerState) (now : ℤ) (pick : Nat)
    (hsat : (st.keys.filter fun k =>
      decide ((pruneAll st.keys now st.usage k).length < 5)).isEmpty = true) :
    (get_key st now pick).1 = GetKeyOutcome.indexError := by
  simp only [get_key, hsat, if_true]
  rw [earliestFold_eq_now _ _ _ (pruned_entries_recent st now)]
  simp

/-- C2: when every key is saturated (5 or more in-window uses each),
`get_key` does *not* compute a positive wait, does not sleep, and does not
eventually return a key: `earliest_available` is initialised to `now` and
only ever lowered, while every candidate `min(usage[k]) + 60` lies
strictly above `now`, so `wait_seconds` is never positive and the call
falls through to `available_keys[0]` on an empty list, raising
`IndexError`.  Concretely, with a single key and six back-to-back calls
the sixth call raises instead of suspending; and the sleep-and-retry
branch is unreachable for every state. -/
theorem claim2_get_key_saturation_crash :
    (runGetKeys (initialState [7]) [(0, 0), (1, 0), (2, 0), (3, 0), (4, 0), (5, 0)]).2 =
      [(0, some 7), (1, some 7), (2, some 7), (3, some 7), (4, some 7), (5, none)] ∧
    (∀ st now pick w, (get_key st now pick).1 ≠ GetKeyOutcome.sleepRetry w) ∧
    (∀ st now pick,
      (st.keys.filter fun k => decide ((pruneAll st.keys now st.usage k).length < 5)).isEmpty = true →
      (get_key st now pick).1 = GetKeyOutcome.indexError) :=
  ⟨rfl, get_key_never_sleeps, get_key_saturated_raises⟩

/-- C2 witness: a concrete saturated state on which
`claim2_get_key_saturation_crash` applies: one key, five uses in the
trailing minute, the call raises `IndexError`. -/
theorem claim2_get_key_saturation_crash_witness :
    (get_key { keys := [3], usage := fun _ => [10, 11, 12, 13, 14] } 15 0).1 =
      GetKeyOutcome.indexError :=
  claim2_get_key_saturation_crash.2.2
    { keys := [3], usage := fun _ => [10, 11, 12, 13, 14] } 15 0 rfl

/-! ### The sliding-window rate limit (C3) -/

/-- Number of calls in the log that returned key `k` inside the window
`[w, w + 60)`. -/
def windowCount (h : List (ℤ × Option Key)) (k : Key) (w : ℤ) : Nat :=
  (h.filter fun e => decide (e.2 = some k ∧ w ≤ e.1 ∧ e.1 < w + 60)).length

/-- Number of calls in the log that returned key `k` strictly after `θ`. -/
def recentCount (h : List (ℤ × Option Key)) (k : Key) (θ : ℤ) : Nat :=
  (h.filter fun e => decide (e.2 = some k ∧ θ < e.1)).length

theorem length_filter_mono {α : Type} {p q : α → Bool}
    (hpq : ∀ a, p a = true → q a = true) (l : List α) :
    (l.filter p).length ≤ (l.filter q).length := by
  induction l with
  | nil => simp
  | cons a l ih =>
    by_cases hp : p a = true
    · rw [List.filter_cons_of_pos hp, List.filter_cons_of_pos (hpq a hp)]
      simpa using ih
    · rw [List.filter_cons_of_neg (by simpa using hp)]
      by_cases hq : q a = true
      · rw [List.filter_cons_of_pos hq]
        exact le_trans ih (Nat.le_succ _)
      · rw [List.filter_cons_of_neg (by simpa using hq)]
        exact ih

/-- A second filter with a weaker strict lower bound is absorbed by the
prune filter. -/
theorem filter_prune_absorb (l : List ℤ) (now θ : ℤ) (hθ : now - 60 ≤ θ) :
    (l.filter fun t => decide (now - 60 < t)).filter (fun t => decide (θ < t)) =
      l.filter fun t => decide (θ < t) := by
  rw [List.filter_filter]
  apply List.filter_congr
  intro t _
  by_cases ht : θ < t
  · have : now - 60 < t := lt_of_le_of_lt hθ ht
    simp [ht, this]
  · simp [ht]

/-- Invariant tying the manager state to the log of past calls: all logged
times are at most `lastT`; for every key and every threshold `θ` no older
than `lastT - 60`, the usage list dominates the count of logged returns
after `θ`; and every 60-second window of the log holds at most 5 returns
per key. -/
structure RunInv (st : KeyManagerState) (h : List (ℤ × Option Key))
    (lastT : ℤ) : Prop where
  times_le : ∀ e ∈ h, e.1 ≤ lastT
  usage_dom : ∀ k θ, lastT - 60 ≤ θ →
    recentCount h k θ ≤ ((st.usage k).filter fun t => decide (θ < t)).length
  window_le : ∀ k w, windowCount h k w ≤ 5

theorem getD_mod_mem {α : Type} (L : List α) (i : Nat) (d : α) (h : L ≠ []) :
    L.getD (i % L.length) d ∈ L := by
  have hlen : 0 < L.length := List.length_pos.mpr h
  have hidx : i % L.length < L.length := Nat.mod_lt _ hlen
  rw [List.getD_eq_getElem?_getD, List.getElem?_eq_getElem hidx]
  exact List.getElem_mem _

/-- Case analysis of one `get_key` call: either it issues a key that had
fewer than 5 pruned in-window uses and appends `now` to that key's pruned
usage list, or it issues nothing and leaves the pruned lists unchanged. -/
theorem get_key_cases (st : KeyManagerState) (now : ℤ) (pick : Nat) :
    (∃ k, (get_key st now pick).1 = GetKeyOutcome.issued k ∧
      (pruneAll st.keys now st.usage k).length < 5 ∧
      (get_key st now pick).2.usage = fun j =>
        if j = k then pruneAll st.keys now st.usage j ++ [now]
        else pruneAll st.keys now st.usage j) ∨
    ((∀ k, (get_key st now pick).1 ≠ GetKeyOutcome.issued k) ∧
      (get_key st now pick).2.usage = pruneAll st.keys now st.usage) := by
  simp only [get_key]
  by_cases h1 : (st.keys.filter fun k =>
      decide ((pruneAll st.keys now st.usage k).length < 5)).isEmpty
  · rw [if_pos h1]
    by_cases h2 : (0 : ℤ) < earliestFold (pruneAll st.keys now st.usage) st.keys now - now
    · rw [if_pos h2]
      refine Or.inr ⟨?_, rfl⟩
      intro k hcon
      simp at hcon
    · rw [if_neg h2]
      refine Or.inr ⟨?_, rfl⟩
      intro k hcon
      simp at hcon
  · rw [if_neg h1]
    by_cases h2 : (((st.keys.filter fun k =>
          decide ((pruneAll st.keys now st.usage k).length < 5)).insertionSort
        (fun a b => (pruneAll st.keys now st.usage a).length ≤
          (pruneAll st.keys now st.usage b).length)).filter fun k =>
            decide ((pruneAll st.keys now st.usage k).length =
              (pruneAll st.keys now st.usage
                (((st.keys.filter fun k =>
                  decide ((pruneAll st.keys now st.usage k).length < 5)).insertionSort
                    (fun a b => (pruneAll st.keys now st.usage a).length ≤
                      (pruneAll st.keys now st.usage b).length)).headD 0)).length)).isEmpty
    · rw [if_pos h2]
      refine Or.inr ⟨?_, rfl⟩
      intro k hcon
      simp at hcon
    · rw [if_neg h2]
      have hLne : (((st.keys.filter fun k =>
          decide ((pruneAll st.keys now st.usage k).length < 5)).insertionSort
        (fun a b => (pruneAll st.keys now st.usage a).length ≤
          (pruneAll st.keys now st.usage b).length)).filter fun k =>
            decide ((pruneAll st.keys now st.usage k).length =
              (pruneAll st.keys now st.usage
                (((st.keys.filter fun k =>
                  decide ((pruneAll st.keys now st.usage k).length < 5)).insertionSort
                    (fun a b => (pruneAll st.keys now st.usage a).length ≤
                      (pruneAll st.keys now st.usage b).length)).headD 0)).length)) ≠ [] := by
        intro hnil
        rw [hnil] at h2
        simp at h2
      have hltall : ∀ x ∈ st.keys.filter
          (fun k => decide ((pruneAll st.keys now st.usage k).length < 5)),
          (pruneAll st.keys now st.usage x).length < 5 := by
        intro x hx
        simpa using (List.mem_filter.mp hx).2
      have hmemL := getD_mod_mem _ pick 0 hLne
      have hmemSorted := (List.mem_filter.mp hmemL).1
      have hmemAvail := (List.mem_insertionSort _).mp hmemSorted
      exact Or.inl ⟨_, rfl, hltall _ hmemAvail, rfl⟩

/-- One call preserves the invariant, with the log extended by the call's
`(now, issued key?)` entry. -/
theorem filter_singleton_length_true {α : Type} (p : α → Bool) (x : α)
    (h : p x = true) : (List.filter p [x]).length = 1 := by
  simp [List.filter, h]

theorem filter_singleton_length_false {α : Type} (p : α → Bool) (x : α)
    (h : p x = false) : (List.filter p [x]).length = 0 := by
  simp [List.filter, h]

theorem get_key_step_inv (st : KeyManagerState) (h : List (ℤ × Option Key))
    (lastT now : ℤ) (pick : Nat) (hinv : RunInv st h lastT) (hle : lastT ≤ now) :
    RunInv (get_key st now pick).2
      (h ++ [(now, issuedKey (get_key st now pick).1)]) now := by
  have husage_dom : ∀ k θ, now - 60 ≤ θ →
      recentCount h k θ ≤
        ((pruneAll st.keys now st.usage k).filter fun t => decide (θ < t)).length := by
    intro k θ hθ
    have hθ' : lastT - 60 ≤ θ := le_trans (by linarith) hθ
    have hold := hinv.usage_dom k θ hθ'
    unfold pruneAll
    by_cases hk : k ∈ st.keys
    · rw [if_pos hk, filter_prune_absorb _ _ _ hθ]
      exact hold
    · rw [if_neg hk]
      exact hold
  have htimes : ∀ z, ∀ e ∈ h ++ [((now : ℤ), (z : Option Key))], e.1 ≤ now := by
    intro z e he
    rcases List.mem_append.mp he with he | he
    · exact le_trans (hinv.times_le e he) hle
    · simp only [List.mem_singleton] at he
      subst he
      exact le_refl now
  rcases get_key_cases st now pick with ⟨k0, hiss, hlt5, husage⟩ | ⟨hnone, husage⟩
  · -- a key was issued
    have husagek : ∀ k, (get_key st now pick).2.usage k =
        if k = k0 then pruneAll st.keys now st.usage k ++ [now]
        else pruneAll st.keys now st.usage k := by
      intro k
      rw [husage]
    rw [hiss]
    constructor
    · exact htimes _
    · intro k θ hθ
      rw [husagek k]
      unfold recentCount
      rw [List.filter_append, List.length_append]
      by_cases hk : k = k0
      · subst hk
        rw [if_pos rfl, List.filter_append, List.length_append]
        have h1 := husage_dom k θ hθ
        unfold recentCount at h1
        by_cases hθn : θ < now
        · rw [filter_singleton_length_true _ _ (by simp [issuedKey, hθn]),
            filter_singleton_length_true _ _ (by simp [hθn])]
          omega
        · rw [filter_singleton_length_false _ _ (by simp [issuedKey, hθn]),
            filter_singleton_length_false _ _ (by simp [hθn])]
          omega
      · rw [if_neg hk]
        rw [filter_singleton_length_false]
        · rw [Nat.add_zero]
          exact husage_dom k θ hθ
        · simp only [issuedKey, decide_eq_false_iff_not]
          rintro ⟨hcon, -⟩
          exact hk (Option.some_inj.mp hcon).symm
    · intro k w
      unfold windowCount
      rw [List.filter_append, List.length_append]
      by_cases hhit : k = k0 ∧ w ≤ now ∧ now < w + 60
      · rcases hhit with ⟨hk, hw1, hw2⟩
        subst hk
        have hwin_le : windowCount h k w ≤ recentCount h k (now - 60) := by
          apply length_filter_mono
          intro e hee
          simp only [decide_eq_true_eq] at hee ⊢
          refine ⟨hee.1, ?_⟩
          have := hee.2.1
          linarith
        have hrec : recentCount h k (now - 60) ≤
            ((pruneAll st.keys now st.usage k).filter fun t =>
              decide (now - 60 < t)).length :=
          husage_dom k (now - 60) (le_refl _)
        have hfl : ((pruneAll st.keys now st.usage k).filter fun t =>
            decide (now - 60 < t)).length ≤ (pruneAll st.keys now st.usage k).length :=
          List.length_filter_le _ _
        have hsingle : (List.filter (fun e => decide (e.2 = some k ∧ w ≤ e.1 ∧ e.1 < w + 60))
            [((now : ℤ), issuedKey (GetKeyOutcome.issued k))]).length ≤ 1 := by
          simpa using List.length_filter_le
            (fun e => decide (e.2 = some k ∧ w ≤ e.1 ∧ e.1 < w + 60))
            [((now : ℤ), issuedKey (GetKeyOutcome.issued k))]
        have hw4 : windowCount h k w ≤ 4 := by omega
        unfold windowCount at hw4
        omega
      · rw [filter_singleton_length_false]
        · rw [Nat.add_zero]
          exact hinv.window_le k w
        · simp only [issuedKey, decide_eq_false_iff_not]
          intro hcon
          exact hhit ⟨(Option.some_inj.mp hcon.1).symm, hcon.2⟩
  · -- no key was issued
    have hik : issuedKey (get_key st now pick).1 = none := by
      cases hout : (get_key st now pick).1 with
      | issued k => exact absurd hout (hnone k)
      | indexError => rfl
      | sleepRetry w => rfl
    rw [hik]
    constructor
    · exact htimes _
    · intro k θ hθ
      rw [husage]
      unfold recentCount
      rw [List.filter_append, List.length_append]
      rw [filter_singleton_length_false _ _ (by simp), Nat.add_zero]
      exact husage_dom k θ hθ
    · intro k w
      unfold windowCount
      rw [List.filter_append, List.length_append]
      rw [filter_singleton_length_false _ _ (by simp), Nat.add_zero]
      exact hinv.window_le k w

/-- Running any further calls from an invariant-satisfying state keeps
every 60-second window of the combined log at 5 returns per key at most. -/
theorem runGetKeys_window_le (trace : List (ℤ × Nat)) :
    ∀ (st : KeyManagerState) (h : List (ℤ × Option Key)) (lastT : ℤ),
    RunInv st h lastT →
    List.Chain (fun a b => a ≤ b) lastT (trace.map Prod.fst) →
    ∀ k w, windowCount (h ++ (runGetKeys st trace).2) k w ≤ 5 := by
  induction trace with
  | nil =>
    intro st h lastT hinv _ k w
    simpa [runGetKeys] using hinv.window_le k w
  | cons c rest ih =>
    intro st h lastT hinv hchain k w
    rcases c with ⟨now, pick⟩
    simp only [List.map_cons] at hchain
    cases hchain with
    | cons hle hchain' =>
      have hstep := get_key_step_inv st h lastT now pick hinv hle
      have := ih (get_key st now pick).2
        (h ++ [(now, issuedKey (get_key st now pick).1)]) now hstep hchain' k w
      simpa [runGetKeys, List.append_assoc] using this

/-- C3: for every sequence of `get_key` calls at nondecreasing times and
every key, any 60-second window contains at most 5 calls that returned
that key: the per-key usage list is pruned to the trailing 60 seconds on
every access and only keys with fewer than 5 in-window uses are ever
selected. -/
theorem claim3_rate_limit_window (keys : List Key) (trace : List (ℤ × Nat))
    (hmono : List.Chain' (fun a b => a ≤ b) (trace.map Prod.fst))
    (k : Key) (w : ℤ) :
    windowCount (runGetKeys (initialState keys) trace).2 k w ≤ 5 := by
  have hinv : RunInv (initialState keys) [] (match trace.map Prod.fst with
      | [] => 0
      | t :: _ => t) := by
    constructor
    · intro e he
      simp at he
    · intro k θ _
      simp [recentCount]
    · intro k w
      simp [windowCount]
  have hchain : List.Chain (fun a b => a ≤ b)
      (match trace.map Prod.fst with | [] => 0 | t :: _ => t) (trace.map Prod.fst) := by
    cases htm : trace.map Prod.fst with
    | nil => exact List.Chain.nil
    | cons t ts =>
      refine List.Chain.cons (le_refl t) ?_
      have := hmono
      rw [htm] at this
      exact this
  have := runGetKeys_window_le trace (initialState keys) [] _ hinv hchain k w
  simpa using this

/-- C3 witness: a concrete three-call trace at nondecreasing times. -/
theorem claim3_rate_limit_window_witness :
    windowCount (runGetKeys (initialState [1, 2]) [(0, 0), (0, 1), (30, 0)]).2 1 0 ≤ 5 :=
  claim3_rate_limit_window [1, 2] [(0, 0), (0, 1), (30, 0)]
    (by
      simp only [List.map_cons, List.map_nil]
      exact List.chain'_cons.mpr ⟨by norm_num,
        List.chain'_cons.mpr ⟨by norm_num, List.chain'_singleton _⟩⟩) 1 0

end LinkCollector

namespace DateExtractor

open Scraper

/-!
### Date extraction (src/headline_worker/modules/date_extractor.py)

Datetimes are modelled as integer seconds.  `dateutil.parser.parse` is an
external library: it is modelled by an oracle `List Char → Option ℤ`
(`none` = raises / unparseable).  `timedelta(days=1) = 86400`,
`timedelta(days=3650) = 315360000`, `timedelta(hours=1) = 3600`.
-/

/-- The sanity window `now - 3650 days ≤ d ≤ now + 1 day`. -/
def inWindow (now d : ℤ) : Prop := now - 3650 * 86400 ≤ d ∧ d ≤ now + 86400

instance (now d : ℤ) : Decidable (inWindow now d) := by
  unfold inWindow
  infer_instance

/-- Python `\s` for ASCII text. -/
def isPySpace (c : Char) : Bool :=
  c = ' ' || c = '\t' || c = '\n' || c = '\r' || c = '\x0b' || c = '\x0c'

/-- Python `str.strip()`. -/
def pyStrip (s : List Char) : List Char :=
  ((s.dropWhile isPySpace).reverse.dropWhile isPySpace).reverse

def digitsToNat (ds : List Char) : Nat :=
  ds.foldl (fun acc c => acc * 10 + (c.toNat - '0'.toNat)) 0

/-- Match `(\d+)\s*UNIT s? \s*ago` anchored at the head of `s`, returning
the captured number. -/
def matchRelAt (unit : List Char) (s : List Char) : Option Nat :=
  let digits := s.takeWhile (fun c => c.isDigit)
  let rest := s.dropWhile (fun c => c.isDigit)
  if digits.isEmpty then none
  else
    let rest1 := rest.dropWhile isPySpace
    if unit.isPrefixOf rest1 then
      let rest2 := rest1.drop unit.length
      let rest3 := if rest2.head? = some 's' then rest2.drop 1 else rest2
      let rest4 := rest3.dropWhile isPySpace
      if "ago".data.isPrefixOf rest4 then some (digitsToNat digits) else none
    else none

/-- `re.search(r'(\d+)\s*units?\s*ago', s)`: leftmost match. -/
def searchRel (unit : List Char) : List Char → Option Nat
  | [] => none
  | c :: cs =>
    match matchRelAt unit (c :: cs) with
    | some n => some n
    | none => searchRel unit cs

/-- The relative-date branch chain of `parse_ai_extracted_date`
(date_extractor.py lines 187-205), applied to the lower-cased stripped
string.  `none` means no branch returned and control falls through to
`dateutil` parsing.  `now.replace(hour=12, minute=0, second=0,
microsecond=0)` is midnight of `now`'s day plus 12 h. -/
def relativeResolve (now : ℤ) (lower : List Char) : Option ℤ :=
  if isSub "hour".data lower = true ∧ isSub "ago".data lower = true then
    match searchRel "hour".data lower with
    | some n => some (now - n * 3600)
    | none => none
  else if isSub "day".data lower = true ∧ isSub "ago".data lower = true then
    match searchRel "day".data lower with
    | some n => some (now - n * 86400)
    | none => none
  else if isSub "yesterday".data lower = true then some (now - 86400)
  else if isSub "today".data lower = true then some (86400 * (Int.fdiv now 86400) + 43200)
  else none

/-- `parse_ai_extracted_date` (date_extractor.py lines 169-222): strip,
lower-case, resolve relative forms (returned *without* any window check),
else `dateutil.parser.parse(date_str, fuzzy=True)` followed by the sanity
window check; a parser exception yields `None`. -/
def parse_ai_extracted_date (oracle : List Char → Option ℤ) (now : ℤ)
    (dateStr : List Char) : Option ℤ :=
  let s := pyStrip dateStr
  match relativeResolve now (lowerStr s) with
  | some d => some d
  | none =>
    match oracle s with
    | none => none
    | some d => if inWindow now d then some d else none

/-- `parse_diffbot_date` (date_extractor.py lines 15-47): empty string →
`None`; parse via `dateutil`; keep only dates inside the sanity window. -/
def parse_diffbot_date (oracle : List Char → Option ℤ) (now : ℤ)
    (dateStr : List Char) : Option ℤ :=
  if dateStr.isEmpty then none
  else
    match oracle dateStr with
    | none => none
    | some d => if inWindow now d then some d else none

/-- The ordered metadata date fields (date_extractor.py lines 60-72). -/
def dateFields : List (List Char) :=
  ["article:published_time".data, "og:published_time".data, "date".data,
   "pubdate".data, "published".data, "publication_date".data,
   "datePublished".data, "article:modified_time".data,
   "og:updated_time".data, "last-modified".data, "modified".data]

def lookupMeta (md : List (List Char × List Char)) (k : List Char) :
    Option (List Char) :=
  (md.find? fun p => decide (p.1 = k)).map Prod.snd

/-- The field loop of `extract_date_from_metadata` (lines 74-92): for each
field present with a truthy value, parse; an in-window hit returns, an
exception or out-of-window date falls through to the next field. -/
def metadataFieldLoop (oracle : List Char → Option ℤ) (now : ℤ)
    (md : List (List Char × List Char)) : List (List Char) → Option ℤ
  | [] => none
  | f :: rest =>
    match lookupMeta md f with
    | some v =>
      if v.isEmpty then metadataFieldLoop oracle now md rest
      else
        match oracle v with
        | some d =>
          if inWindow now d then some d else metadataFieldLoop oracle now md rest
        | none => metadataFieldLoop oracle now md rest
    | none => metadataFieldLoop oracle now md rest

/-- `extract_date_from_metadata` (date_extractor.py lines 49-92). -/
def extract_date_from_metadata (oracle : List Char → Option ℤ) (now : ℤ)
    (md : List (List Char × List Char)) : Option ℤ :=
  metadataFieldLoop oracle now md dateFields

/-- `extract_date_priority_system` (date_extractor.py lines 224-282).
`aiDateStr` is the string returned by `extract_date_with_ai` (an external
LLM call; `none` covers "Date not found" and failures);
`haveContentMeta` is the truthiness of `content and metadata`. -/
def extract_date_priority_system (oracle : List Char → Option ℤ) (now : ℤ)
    (scraperType : List Char) (diffbotDate : Option (List Char))
    (aiDateStr : Option (List Char)) (haveContentMeta : Bool)
    (haveMeta : Bool) (md : List (List Char × List Char)) :
    Option ℤ × List Char :=
  if scraperType = "diffbot".data then
    match diffbotDate with
    | some ds =>
      if ds.isEmpty then
        diffbotAiFallback oracle now aiDateStr haveContentMeta
      else
        match parse_diffbot_date oracle now ds with
        | some d => (some d, "diffbot_primary".data)
        | none => diffbotAiFallback oracle now aiDateStr haveContentMeta
    | none => diffbotAiFallback oracle now aiDateStr haveContentMeta
  else if scraperType = "playwright".data then
    match (if haveContentMeta then aiDateStr else none) with
    | some ais =>
      (match parse_ai_extracted_date oracle now ais with
       | some d => (some d, "playwright_ai_primary".data)
       | none => playwrightAlgFallback oracle now haveMeta md)
    | none => playwrightAlgFallback oracle now haveMeta md
  else (none, "failed".data)
where
  diffbotAiFallback (oracle : List Char → Option ℤ) (now : ℤ)
      (aiDateStr : Option (List Char)) (haveContentMeta : Bool) :
      Option ℤ × List Char :=
    match (if haveContentMeta then aiDateStr else none) with
    | some ais =>
      (match parse_ai_extracted_date oracle now ais with
       | some d => (some d, "diffbot_ai_fallback".data)
       | none => (none, "failed".data))
    | none => (none, "failed".data)
  playwrightAlgFallback (oracle : List Char → Option ℤ) (now : ℤ)
      (haveMeta : Bool) (md : List (List Char × List Char)) :
      Option ℤ × List Char :=
    if haveMeta then
      match extract_date_from_metadata oracle now md with
      | some d => (some d, "playwright_algorithmic_fallback".data)
      | none => (none, "failed".data)
    else (none, "failed".data)

/-- Every date the metadata field loop returns lies in the sanity window
(an out-of-window or unparseable field falls through to the next). -/
theorem metadataFieldLoop_in_window (oracle : List Char → Option ℤ) (now : ℤ)
    (md : List (List Char × List Char)) :
    ∀ (fields : List (List Char)) (d : ℤ),
      metadataFieldLoop oracle now md fields = some d → inWindow now d := by
  intro fields
  induction fields with
  | nil => intro d h; exact absurd h (by simp [metadataFieldLoop])
  | cons f rest ih =>
    intro d h
    unfold metadataFieldLoop at h
    cases hm : lookupMeta md f with
    | none => simp only [hm] at h; exact ih d h
    | some v =>
      simp only [hm] at h
      by_cases hv : v.isEmpty
      · rw [if_pos hv] at h
        exact ih d h
      · rw [if_neg hv] at h
        cases ho : oracle v with
        | none => simp only [ho] at h; exact ih d h
        | some x =>
          simp only [ho] at h
          by_cases hw : inWindow now x
          · rw [if_pos hw] at h
            cases h
            exact hw
          · rw [if_neg hw] at h
            exact ih d h

/-- C4 counterexample: the relative form "5000 days ago" is resolved to
`now - 5000 days`, which lies far outside the sanity window
`now - 3650 d ≤ d ≤ now + 1 d`, yet `parse_ai_extracted_date` returns it
(the relative branches return before the window check), and the priority
cascade hands it on as the extracted date.  This refutes "every date
produced by the date-extraction cascade — including dates resolved from
relative forms — lies within the sanity window". -/
theorem claim4_relative_date_counterexample :
    parse_ai_extracted_date (fun _ => none) 0 "5000 days ago".data =
      some (-432000000) ∧
    ¬ inWindow 0 (-432000000) ∧
    extract_date_priority_system (fun _ => none) 0 "playwright".data none
      (some "5000 days ago".data) true true [] =
      (some (-432000000), "playwright_ai_primary".data) := by
  refine ⟨rfl, by decide, rfl⟩

/-- C4 (amended): the sanity window `now − 3650 d ≤ d ≤ now + 1 d` is
enforced on every date parsed through `dateutil` — by
`parse_diffbot_date`, by `extract_date_from_metadata` (whose cascade
continues past an out-of-window field), and by the `dateutil` path of
`parse_ai_extracted_date` — but dates resolved from the relative forms
('N hours ago', 'N days ago', 'yesterday', 'today') are returned without
the window check, so they (and hence a persisted `date_posted`) can fall
outside the window. -/
theorem claim4_sanity_window (oracle : List Char → Option ℤ) (now : ℤ)
    (s : List Char) (md : List (List Char × List Char)) (d : ℤ) :
    (parse_diffbot_date oracle now s = some d → inWindow now d) ∧
    (extract_date_from_metadata oracle now md = some d → inWindow now d) ∧
    (relativeResolve now (lowerStr (pyStrip s)) = none →
      parse_ai_extracted_date oracle now s = some d → inWindow now d) ∧
    (relativeResolve now (lowerStr (pyStrip s)) = some d →
      parse_ai_extracted_date oracle now s = some d) := by
  refine ⟨?_, ?_, ?_, ?_⟩
  · intro h
    unfold parse_diffbot_date at h
    by_cases he : s.isEmpty
    · rw [if_pos he] at h
      exact absurd h (by simp)
    · rw [if_neg he] at h
      cases ho : oracle s with
      | none => simp only [ho] at h; exact absurd h (by simp)
      | some x =>
        simp only [ho] at h
        by_cases hw : inWindow now x
        · rw [if_pos hw] at h
          cases h
          exact hw
        · rw [if_neg hw] at h
          exact absurd h (by simp)
  · intro h
    exact metadataFieldLoop_in_window oracle now md dateFields d h
  · intro hrel h
    unfold parse_ai_extracted_date at h
    simp only [hrel] at h
    cases ho : oracle (pyStrip s) with
    | none => simp only [ho] at h; exact absurd h (by simp)
    | some x =>
      simp only [ho] at h
      by_cases hw : inWindow now x
      · rw [if_pos hw] at h
        cases h
        exact hw
      · rw [if_neg hw] at h
        exact absurd h (by simp)
  · intro hrel
    simp only [parse_ai_extracted_date, hrel]

/-- C4 witness: concrete instances for both the checked `dateutil` path
(a date 10 s after `now = 0` is inside the window and survives) and the
unchecked relative path. -/
theorem claim4_sanity_window_witness :
    inWindow 0 10 ∧
    parse_ai_extracted_date (fun _ => none) 0 "yesterday".data = some (-86400) := by
  constructor
  · exact (claim4_sanity_window (fun _ => some 10) 0 "x".data [] 10).1 rfl
  · exact (claim4_sanity_window (fun _ => none) 0 "yesterday".data [] (-86400)).2.2.2 rfl

end DateExtractor

namespace UrlUtils

open Scraper

/-!
### URL parsing (Python `urllib.parse`, as used by the repository)

`urlparse`, `parse_qs` and `urlunparse` are the CPython 3.11 algorithms
on ASCII text (multi-byte percent-escapes and the WHATWG bracket checks
are not modelled; the `\t\r\n` removal of `urlsplit` is).
-/

structure UrlParts where
  scheme : List Char
  netloc : List Char
  path : List Char
  params : List Char
  query : List Char
  fragment : List Char
deriving DecidableEq, Repr

theorem char_toNat_ofNat_small (n : Nat) (h2 : n < 255) : (Char.ofNat n).toNat = n := by
  unfold Char.ofNat
  rw [dif_pos (Or.inl (by omega))]
  simp only [Char.ofNatAux, Char.toNat, UInt32.ofNat', UInt32.toNat, BitVec.toNat_ofNatLt]

theorem char_toLower_idem (c : Char) : c.toLower.toLower = c.toLower := by
  unfold Char.toLower
  by_cases h : 65 ≤ c.toNat ∧ c.toNat ≤ 90
  · rw [if_pos h]
    have hv : (Char.ofNat (c.toNat + 32)).toNat = c.toNat + 32 :=
      char_toNat_ofNat_small _ (by omega)
    rw [if_neg (by omega)]
  · rw [if_neg h, if_neg h]

theorem lowerStr_idem (s : List Char) : lowerStr (lowerStr s) = lowerStr s := by
  unfold lowerStr
  rw [List.map_map]
  exact List.map_congr_left fun c _ => char_toLower_idem c

/-- Split a list at the first occurrence of `sep` (excluded), if any. -/
def breakAtChar (sep : Char) : List Char → Option (List Char × List Char)
  | [] => none
  | c :: cs =>
    if c = sep then some ([], cs)
    else
      match breakAtChar sep cs with
      | some (a, b) => some (c :: a, b)
      | none => none

def schemeChar (c : Char) : Bool :=
  c.isAlpha || c.isDigit || c = '+' || c = '-' || c = '.'

/-- The scheme detection of `urlsplit`: the text before the first `:` is a
scheme iff it is nonempty, starts with an ASCII letter and continues with
scheme characters; the scheme is lower-cased by `urlsplit` itself. -/
def splitScheme (url : List Char) : Option (List Char × List Char) :=
  match breakAtChar ':' url with
  | none => none
  | some (before, after) =>
    match before with
    | [] => none
    | c :: rest =>
      if c.isAlpha && rest.all schemeChar then some (lowerStr before, after)
      else none

def notNetlocEnd (c : Char) : Bool := !(c = '/' || c = '?' || c = '#')

/-- CPython `urlsplit` (on text already free of tab/CR/LF). -/
def urlsplitM (url0 : List Char) : UrlParts :=
  let url := url0.filter fun c => !(c = '\t' || c = '\r' || c = '\n')
  let sr := splitScheme url
  let scheme := match sr with | some (s, _) => s | none => []
  let rest := match sr with | some (_, r) => r | none => url
  let hasNetloc := "//".data.isPrefixOf rest
  let netloc := if hasNetloc then (rest.drop 2).takeWhile notNetlocEnd else []
  let rest2 := if hasNetloc then (rest.drop 2).dropWhile notNetlocEnd else rest
  let fr := breakAtChar '#' rest2
  let rest3 := match fr with | some (a, _) => a | none => rest2
  let fragment := match fr with | some (_, b) => b | none => []
  let qr := breakAtChar '?' rest3
  let path := match qr with | some (a, _) => a | none => rest3
  let query := match qr with | some (_, b) => b | none => []
  { scheme := scheme, netloc := netloc, path := path, params := [],
    query := query, fragment := fragment }

/-- `(init-before-last-slash ++ "/", last-segment)`, or `([], s)` when `s`
has no slash. -/
def splitOnLastSlash (s : List Char) : List Char × List Char :=
  match breakAtChar '/' s.reverse with
  | some (revSeg, revInit) => (revInit.reverse ++ ['/'], revSeg.reverse)
  | none => ([], s)

/-- CPython `_splitparams`: split `;params` off the last path segment. -/
def splitparamsM (path : List Char) : List Char × List Char :=
  if '/' ∈ path then
    let p := splitOnLastSlash path
    match breakAtChar ';' p.2 with
    | some (a, b) => (p.1 ++ a, b)
    | none => (path, [])
  else
    match breakAtChar ';' path with
    | some (a, b) => (a, b)
    | none => (path, [])

/-- CPython `urlparse`: `urlsplit` plus the params split. -/
def urlparseM (url : List Char) : UrlParts :=
  let p := urlsplitM url
  let pp := splitparamsM p.path
  { p with path := pp.1, params := pp.2 }

def hexVal (c : Char) : Option Nat :=
  if '0' ≤ c ∧ c ≤ '9' then some (c.toNat - '0'.toNat)
  else if 'a' ≤ c ∧ c ≤ 'f' then some (c.toNat - 'a'.toNat + 10)
  else if 'A' ≤ c ∧ c ≤ 'F' then some (c.toNat - 'A'.toNat + 10)
  else none

/-- `unquote(s.replace('+', ' '))` for ASCII text: `+` becomes a space and
`%XY` hex pairs decode to the corresponding character; a malformed escape
stays literal. -/
def unquotePlus : List Char → List Char
  | [] => []
  | '+' :: rest => ' ' :: unquotePlus rest
  | '%' :: c1 :: c2 :: rest =>
    match hexVal c1, hexVal c2 with
    | some h1, some h2 => Char.ofNat (16 * h1 + h2) :: unquotePlus rest
    | _, _ => '%' :: unquotePlus (c1 :: c2 :: rest)
  | c :: rest => c :: unquotePlus rest

/-- CPython `parse_qsl` with its defaults (separator `&`, blank values and
separator-free fields dropped, keys and values unquoted). -/
def parse_qsl (qs : List Char) : List (List Char × List Char) :=
  (qs.splitOn '&').foldr
    (fun nameValue acc =>
      match breakAtChar '=' nameValue with
      | none => acc
      | some (name, value) =>
        if value.isEmpty then acc
        else (unquotePlus name, unquotePlus value) :: acc)
    []

/-- Group pairs into a `parse_qs`-style dict: keys in first-occurrence
order, each with its values in occurrence order. -/
def groupPairs : List (List Char × List Char) → List (List Char × List (List Char))
  | [] => []
  | (k, v) :: rest =>
    let grouped := groupPairs rest
    match grouped.find? (fun p => decide (p.1 = k)) with
    | some _ =>
      grouped.map fun p => if p.1 = k then (p.1, v :: p.2) else p
    | none => (k, [v]) :: grouped

/-- CPython `parse_qs`. -/
def parse_qs (qs : List Char) : List (List Char × List (List Char)) :=
  groupPairs (parse_qsl qs)

/-- Lexicographic comparison of Python strings by code point. -/
def strLt : List Char → List Char → Bool
  | [], [] => false
  | [], _ :: _ => true
  | _ :: _, [] => false
  | a :: as, b :: bs => if a < b then true else if b < a then false else strLt as bs

def strLe (a b : List Char) : Bool := !(strLt b a)

/-- The tracking parameters removed by `canonicalize_url`
(url_utils.py lines 102-103 and content_extractor.py lines 236-237). -/
def trackingParams : List (List Char) :=
  ["utm_source".data, "utm_medium".data, "utm_campaign".data, "utm_term".data,
   "utm_content".data, "fbclid".data, "gclid".data, "_ga".data, "ref".data,
   "source".data]

/-- The query rebuild of `canonicalize_url`: drop tracking parameters,
sort keys and values, emit `key=value` joined by `&`. -/
def processQuery (q : List Char) : List Char :=
  let queryParams := (parse_qs q).filter fun p =>
    !decide (lowerStr p.1 ∈ trackingParams)
  let sortedKeys := queryParams.insertionSort fun p1 p2 => strLe p1.1 p2.1 = true
  let items := sortedKeys.flatMap fun p =>
    (p.2.insertionSort fun v1 v2 => strLe v1 v2 = true).map fun v => p.1 ++ '=' :: v
  List.intercalate ['&'] items

/-- CPython `urlunsplit`. -/
def urlunsplitM (scheme netloc url query fragment : List Char) : List Char :=
  let url1 :=
    if netloc ≠ [] ∨ (url ≠ [] ∧ url.take 2 = "//".data) then
      "//".data ++ netloc ++
        (if url ≠ [] ∧ url.take 1 ≠ "/".data then '/' :: url else url)
    else url
  let url2 := if scheme ≠ [] then scheme ++ ':' :: url1 else url1
  let url3 := if query ≠ [] then url2 ++ '?' :: query else url2
  if fragment ≠ [] then url3 ++ '#' :: fragment else url3

/-- CPython `urlunparse` restricted to `params = ''`, as
`canonicalize_url` calls it. -/
def urlunparseM (p : UrlParts) : List Char :=
  urlunsplitM p.scheme p.netloc
    (if p.params ≠ [] then p.path ++ ';' :: p.params else p.path)
    p.query p.fragment

def rstripSlash (p : List Char) : List Char :=
  (p.reverse.dropWhile fun c => c = '/').reverse

def stripWww (n : List Char) : List Char :=
  if startsW "www.".data n = true then n.drop 4 else n

/-- The component transformation performed by `canonicalize_url`
(url_utils.py lines 77-123; the identical copy is content_extractor.py
lines 219-257): lower-case scheme and netloc, strip a leading `www.`,
rebuild the query without tracking parameters and sorted, drop the
fragment and the params, strip trailing slashes from the path (an empty
path becomes `/`). -/
def canonTransform (p : UrlParts) : UrlParts :=
  { scheme := lowerStr p.scheme,
    netloc := stripWww (lowerStr p.netloc),
    path := (let p0 := rstripSlash p.path; if p0 = [] then ['/'] else p0),
    params := [],
    query := processQuery p.query,
    fragment := [] }

def canonParts (url : List Char) : UrlParts := canonTransform (urlparseM url)

/-- `canonicalize_url` (src/headline_worker/modules/url_utils.py lines
77-123). -/
def canonicalize_url (url : List Char) : List Char :=
  urlunparseM (canonParts url)

/-- The character-for-character identical copy of `canonicalize_url` in
src/headline_worker/modules/content_extractor.py lines 219-257. -/
def canonicalize_url_ce (url : List Char) : List Char :=
  urlunparseM (canonTransform (urlparseM url))

theorem dropWhile_idem (p : Char → Bool) (l : List Char) :
    (l.dropWhile p).dropWhile p = l.dropWhile p := by
  cases h : l.dropWhile p with
  | nil => simp
  | cons c cs =>
    have hh := List.head?_dropWhile_not p l
    rw [h] at hh
    simp only [List.head?_cons] at hh
    rw [List.dropWhile_cons_of_neg (by simp [hh])]

theorem rstripSlash_idem (p : List Char) :
    rstripSlash (rstripSlash p) = rstripSlash p := by
  unfold rstripSlash
  rw [List.reverse_reverse, dropWhile_idem]

/-- The path step of `canonTransform` is idempotent. -/
theorem canonPath_idem (p : List Char) :
    (let p0 := rstripSlash (let q0 := rstripSlash p; if q0 = [] then ['/'] else q0);
      if p0 = [] then ['/'] else p0) =
    (let q0 := rstripSlash p; if q0 = [] then ['/'] else q0) := by
  by_cases hq : rstripSlash p = []
  · simp only [hq, if_pos rfl]
    rfl
  · simp only [if_neg hq, rstripSlash_idem, if_neg hq]

theorem lowerStr_drop (n : List Char) (k : Nat) :
    lowerStr (List.drop k n) = List.drop k (lowerStr n) := by
  simp [lowerStr, List.map_drop]

theorem lowerStr_stripWww_fix (n : List Char) :
    lowerStr (stripWww (lowerStr n)) = stripWww (lowerStr n) := by
  unfold stripWww
  by_cases h : startsW "www.".data (lowerStr n) = true
  · rw [if_pos h]
    rw [lowerStr_drop, lowerStr_idem]
  · rw [if_neg h]
    exact lowerStr_idem n

/-- C7 counterexample: `canonicalize_url` is not idempotent.  The host
`www.www.example.com` loses one `www.` per application, so the first and
second canonicalizations differ. -/
theorem claim7_idempotence_counterexample :
    canonicalize_url "http://www.www.example.com/x".data =
      "http://www.example.com/x".data ∧
    canonicalize_url (canonicalize_url "http://www.www.example.com/x".data) =
      "http://example.com/x".data ∧
    canonicalize_url (canonicalize_url "http://www.www.example.com/x".data) ≠
      canonicalize_url "http://www.www.example.com/x".data := by
  refine ⟨rfl, rfl, by decide⟩

/-- C7 (amended): both copies of `canonicalize_url` (url_utils and
content_extractor) are the same function, and canonicalization is
idempotent for every URL whose canonical form is *stable*: it re-parses
to the components it was built from, its host does not again start with
`www.`, and its rebuilt query is a fixed point of the query processing.
In general idempotence fails (hosts with repeated `www.` prefixes,
percent-encoded separators in query values, `;` bared in the last path
segment by trailing-slash stripping). -/
theorem claim7_canonicalize_idempotent (u : List Char)
    (h1 : urlparseM (canonicalize_url u) = canonParts u)
    (h2 : startsW "www.".data (canonParts u).netloc = false)
    (h3 : processQuery (canonParts u).query = (canonParts u).query) :
    canonicalize_url (canonicalize_url u) = canonicalize_url u ∧
    canonicalize_url_ce = canonicalize_url := by
  constructor
  · show urlunparseM (canonTransform (urlparseM (canonicalize_url u))) = canonicalize_url u
    rw [h1]
    have htrans : canonTransform (canonParts u) = canonParts u := by
      show canonTransform (canonTransform (urlparseM u)) = canonTransform (urlparseM u)
      unfold canonTransform
      refine UrlParts.mk.injEq _ _ _ _ _ _ _ _ _ _ _ _ |>.mpr ?_
      refine ⟨lowerStr_idem _, ?_, ?_, rfl, ?_, rfl⟩
      · show stripWww (lowerStr (stripWww (lowerStr (urlparseM u).netloc))) =
          stripWww (lowerStr (urlparseM u).netloc)
        rw [lowerStr_stripWww_fix]
        unfold stripWww
        have h2' : startsW "www.".data (stripWww (lowerStr (urlparseM u).netloc)) = false := h2
        unfold stripWww at h2'
        rw [if_neg (by simp [h2'])]
      · exact canonPath_idem _
      · exact h3
    rw [htrans]
    rfl
  · rfl

/-- C7 witness: a concrete URL whose canonical form is stable, so
idempotence applies to it. -/
theorem claim7_canonicalize_idempotent_witness :
    canonicalize_url (canonicalize_url
      "HTTP://WWW.Example.COM/Page/?b=2&a=1".data) =
    canonicalize_url "HTTP://WWW.Example.COM/Page/?b=2&a=1".data :=
  (claim7_canonicalize_idempotent "HTTP://WWW.Example.COM/Page/?b=2&a=1".data
    (by decide) (by decide) (by decide)).1

end UrlUtils

namespace UrlUtils

/-!
### `is_valid_article_url`
(src/headline_worker/modules/url_utils.py lines 1-233)
-/

/-- `NON_CONTENT_EXTENSIONS` (url_utils.py line 6): extensions of the
case-insensitive regex, which is anchored at the end of the string
(`$` also matches just before one trailing newline). -/
def nonContentExts : List (List Char) :=
  ["jpg".data, "jpeg".data, "png".data, "gif".data, "bmp".data, "webp".data,
   "svg".data, "ico".data, "tiff".data, "mp4".data, "avi".data, "mov".data,
   "wmv".data, "flv".data, "mkv".data, "m4v".data, "webm".data, "mp3".data,
   "wav".data, "ogg".data, "m4a".data, "aac".data, "css".data, "js".data,
   "json".data, "xml".data, "rss".data, "pdf".data, "zip".data, "rar".data,
   "doc".data, "docx".data, "xls".data, "xlsx".data, "ppt".data, "pptx".data]

def nonContentExtSearch (url : List Char) : Bool :=
  let s := Scraper.lowerStr url
  let s2 := if s.getLast? = some '\n' then s.dropLast else s
  nonContentExts.any fun ext => Scraper.endsW ('.' :: ext) s2

/-- `SOCIAL_HOSTS` (url_utils.py line 9): a case-insensitive substring
search for any of the listed domains. -/
def socialHostsList : List (List Char) :=
  ["facebook.com".data, "twitter.com".data, "instagram.com".data,
   "linkedin.com".data, "youtube.com".data, "tiktok.com".data,
   "pinterest.com".data]

def socialHostsSearch (s : List Char) : Bool :=
  socialHostsList.any fun d => Scraper.isSub d (Scraper.lowerStr s)

/-- `STATIC_MEDIA_PATTERNS` (url_utils.py lines 12-19). -/
def staticMediaPatterns : List (List Char) :=
  ["images.".data, "img.".data, "cdn.".data, "static.".data, "image.".data,
   "media.".data, "assets.".data, "videos.".data, "video.".data,
   "pics.".data, "photos.".data, "thumbs.".data, "thumbnail.".data,
   "mcdn.".data, "lura.live".data, "cloudfront.net".data,
   "akamai.net".data, "fastly.net".data, "cloudinary.com".data,
   "foxtv.".data, "q13fox.".data]

/-- `SKIP_QUERY_PARAMS` (url_utils.py lines 22-26). -/
def skipQueryParams : List (List Char) :=
  ["print=".data, "share=".data, "format=".data, "output=".data,
   "view=".data, "action=".data, "filter=".data, "sort=".data,
   "search=".data, "query=".data, "page=".data, "ref=".data]

/-- `SOCIAL_SHARING_PATTERNS` (url_utils.py lines 29-34). -/
def socialSharingPatterns : List (List Char) :=
  ["/sharer/".data, "/share?".data, "share-offsite".data,
   "/facebook".data, "/twitter".data, "/linkedin".data, "/pinterest".data,
   "/youtube".data, "linkedin.com/sharing".data, "facebook.com/sharer".data,
   "twitter.com/share".data, "pinterest.com/pin".data]

/-- `SECTION_PATHS` (url_utils.py lines 37-40). -/
def sectionPaths : List (List Char) :=
  ["/live".data, "/news".data, "/sports".data, "/weather".data,
   "/shows".data, "/about".data, "/contact".data, "/search".data,
   "/tag".data, "/category".data]

/-- `GOV_SKIP_PATHS` (url_utils.py lines 43-55). -/
def govSkipPaths : List (List Char) :=
  ["/city-government".data, "/departments".data, "/services".data,
   "/business".data, "/community".data, "/recreation".data,
   "/permits".data, "/utilities".data, "/transportation".data,
   "/city-council".data, "/mayor".data, "/administration".data,
   "/planning".data, "/development".data, "/police".data, "/video".data,
   "/fire".data, "/parks".data, "/library".data, "/MyAccount".data,
   "/MyAccount.aspx".data, "/Business".data, "/Business.aspx".data,
   "/Our-Community".data, "/Our-Community.aspx".data,
   "/municipal".data, "/public-works".data,
   "/discover".data, "/city-news$".data,
   "/resident-resources".data, "/newcomers-guide".data,
   "/about".data, "/contact".data, "/faqs".data,
   "/meetings".data, "/events".data, "/calendar".data]

/-- `NON_ARTICLE_PATHS` (url_utils.py lines 58-75), duplicates included. -/
def nonArticlePaths : List (List Char) :=
  ["/search".data, "/tag".data, "/category".data, "/author".data,
   "/about".data, "/contact".data, "/privacy".data, "/terms".data,
   "/login".data, "/register".data, "/welcome".data,
   "/contact".data, "/privacy".data, "/terms".data, "/login".data,
   "/register".data, "/public-safety".data, "/public-safety.aspx".data,
   "/public-safety.html".data, "/public-safety.php".data,
   "/public-safety.asp".data,
   "/subscribe".data, "/wp-admin".data, "/wp-includes".data,
   "/cdn-cgi".data, "#main-content".data, "/emergency-preparedness".data,
   "/static".data, "/media".data, "/images".data, "/css".data, "/js".data,
   "/fonts".data, "/doing-business".data,
   "/assets".data, "/weather".data, "/traffic".data, "/contests".data,
   "/apps".data,
   "/advertise".data, "/careers".data, "/jobs".data, "/staff".data,
   "/newsletters".data,
   "/subscribe".data, "/subscription".data, "/help".data, "/faq".data,
   "/support".data, "/welcome".data,
   "/calendar".data, "/events".data, "/directory".data, "/classified".data,
   "/person".data, "/winning-question".data,
   "/marketplace".data, "/shop".data, "/donate".data, "/giving".data,
   "/sponsors".data,
   "/discover".data, "/development-pipeline".data, "/development".data,
   "/team".data,
   "/pipeline".data, "/projects".data, "/construction".data,
   "/future-projects".data, "/links-you-saw-on-tv".data,
   "/ProfileCreate".data, "/ProfileCreate.aspx".data, "/ProfileEdit".data,
   "/ProfileEdit.aspx".data, "/ProfileView".data, "/ProfileView.aspx".data,
   "/eeo-report".data, "/public-file".data, "/closed-captioning".data,
   "/Business".data, "/Business.aspx".data, "/Our-Community".data,
   "/Our-Community.aspx".data, "/City-Services".data,
   "/fcc-applications".data, "/fcc-public-file".data,
   "/advertise-with-us".data,
   "/station-info".data, "/corporate-info".data, "/legal".data,
   "/accessibility-statement".data]

/-- The `.gov` special logic (url_utils.py lines 179-198), as a predicate
deciding rejection (the non-rejecting outcomes fall through to the later
checks). -/
def govRejects (path : List Char) : Bool :=
  if Scraper.startsW "/city-news/".data path then
    let segs := (path.splitOn '/').drop 1
    !(decide (1 < segs.length) && !(segs.getD 1 []).isEmpty && !decide ('?' ∈ path))
  else
    decide (path = "/".data) || Scraper.endsW "/home".data path ||
      Scraper.endsW "/index".data path ||
      govSkipPaths.any fun sp =>
        (Scraper.endsW "$".data sp && decide (path = sp.dropLast)) ||
        (!Scraper.endsW "$".data sp && Scraper.startsW sp path)

/-- `re.search(r'https?://([^/]+)', s)`: the first capture at the
leftmost matching position. -/
def domainAt (s : List Char) : Option (List Char) :=
  if Scraper.startsW "http://".data s then
    let dom := (s.drop 7).takeWhile fun c => c ≠ '/'
    if dom.isEmpty then none else some dom
  else if Scraper.startsW "https://".data s then
    let dom := (s.drop 8).takeWhile fun c => c ≠ '/'
    if dom.isEmpty then none else some dom
  else none

def domainSearch : List Char → Option (List Char)
  | [] => none
  | c :: cs =>
    match domainAt (c :: cs) with
    | some d => some d
    | none => domainSearch cs

/-- Python `s.replace('www.', '')`: remove every (non-overlapping,
left-to-right) occurrence. -/
def removeAllWww : List Char → List Char
  | 'w' :: 'w' :: 'w' :: '.' :: rest => removeAllWww rest
  | c :: rest => c :: removeAllWww rest
  | [] => []

/-- `enhanced_cdn_patterns` (url_utils.py line 217). -/
def enhancedCdnPatterns : List (List Char) :=
  staticMediaPatterns ++
    ["cdn.".data, "media.".data, "assets.".data, "img.".data, "images.".data]

/-- `is_valid_article_url` (url_utils.py lines 125-233): the ordered
rejection rules, then the `civicalerts.aspx` / `campaign-archive.com`
check placed immediately before the default accept. -/
def is_valid_article_url (url baseUrl : List Char) : Bool :=
  if ¬ (Scraper.startsW "http://".data url = true ∨
      Scraper.startsW "https://".data url = true) then false
  else
    let parsed := urlparseM url
    let path := Scraper.lowerStr parsed.path
    let hostname := Scraper.lowerStr parsed.netloc
    let fullUrl := Scraper.lowerStr url
    if path = "/".data ∨ path = [] ∨ '#' ∈ url then false
    else if path = "/".data ∧ parsed.query ≠ [] then false
    else if nonContentExtSearch url then false
    else if staticMediaPatterns.any (fun p => Scraper.isSub p hostname) then false
    else if skipQueryParams.any (fun p => Scraper.isSub p parsed.query) then false
    else if socialSharingPatterns.any (fun p => Scraper.isSub p fullUrl) then false
    else if socialHostsSearch url then false
    else if sectionPaths.any (fun sec => decide (path = sec)) then false
    else if Scraper.isSub ".gov".data hostname && govRejects path then false
    else if nonArticlePaths.any
        (fun pat => decide (path = pat) || Scraper.startsW (pat ++ "/".data) path) then
      false
    else
      match domainSearch baseUrl, domainSearch url with
      | some baseDom, some urlDom =>
        let baseDomain := removeAllWww baseDom
        let urlDomain := removeAllWww urlDom
        if ¬ (urlDomain = baseDomain ∨
              Scraper.endsW ('.' :: baseDomain) urlDomain) ∧
            ¬ (enhancedCdnPatterns.any fun p => Scraper.isSub p urlDomain) then
          false
        else if Scraper.isSub "civicalerts.aspx".data path = true ∨
            Scraper.isSub "campaign-archive.com".data hostname = true then true
        else true
      | _, _ => false

/-- `is_valid_article_url` with the escape-hatch conditional removed —
used to state that the hatch never affects the result. -/
def is_valid_article_url_nohatch (url baseUrl : List Char) : Bool :=
  if ¬ (Scraper.startsW "http://".data url = true ∨
      Scraper.startsW "https://".data url = true) then false
  else
    let parsed := urlparseM url
    let path := Scraper.lowerStr parsed.path
    let hostname := Scraper.lowerStr parsed.netloc
    let fullUrl := Scraper.lowerStr url
    if path = "/".data ∨ path = [] ∨ '#' ∈ url then false
    else if path = "/".data ∧ parsed.query ≠ [] then false
    else if nonContentExtSearch url then false
    else if staticMediaPatterns.any (fun p => Scraper.isSub p hostname) then false
    else if skipQueryParams.any (fun p => Scraper.isSub p parsed.query) then false
    else if socialSharingPatterns.any (fun p => Scraper.isSub p fullUrl) then false
    else if socialHostsSearch url then false
    else if sectionPaths.any (fun sec => decide (path = sec)) then false
    else if Scraper.isSub ".gov".data hostname && govRejects path then false
    else if nonArticlePaths.any
        (fun pat => decide (path = pat) || Scraper.startsW (pat ++ "/".data) path) then
      false
    else
      match domainSearch baseUrl, domainSearch url with
      | some baseDom, some urlDom =>
        let baseDomain := removeAllWww baseDom
        let urlDomain := removeAllWww urlDom
        if ¬ (urlDomain = baseDomain ∨
              Scraper.endsW ('.' :: baseDomain) urlDomain) ∧
            ¬ (enhancedCdnPatterns.any fun p => Scraper.isSub p urlDomain) then
          false
        else true
      | _, _ => false

/-- C5 counterexample: the escape hatches do *not* override the rejection
rules.  A URL whose path contains `civicalerts.aspx` but which carries a
fragment is rejected, and a URL on host `campaign-archive.com` with root
path is rejected — the claim says both must be accepted regardless of the
rejection rules. -/
theorem claim5_escape_hatch_counterexample :
    Scraper.isSub "civicalerts.aspx".data
      (Scraper.lowerStr (urlparseM "https://example.com/civicalerts.aspx#x".data).path) = true ∧
    is_valid_article_url "https://example.com/civicalerts.aspx#x".data
      "https://example.com".data = false ∧
    Scraper.lowerStr (urlparseM "https://campaign-archive.com/".data).netloc =
      "campaign-archive.com".data ∧
    is_valid_article_url "https://campaign-archive.com/".data
      "https://campaign-archive.com".data = false := by
  refine ⟨by decide, rfl, rfl, rfl⟩

/-- C5 (amended): the escape-hatch test sits *after* every rejection
rule, immediately before the default accept, so it never changes the
outcome: a `civicalerts.aspx` / `campaign-archive.com` URL is accepted
exactly when it survives all the rejection rules (the validator equals
its hatch-free variant on every input); in particular the spec's example
`https://example.com/civicalerts.aspx?id=9` is accepted because no rule
fires on it. -/
theorem claim5_escape_hatch_dead_code (url baseUrl : List Char) :
    is_valid_article_url url baseUrl = is_valid_article_url_nohatch url baseUrl ∧
    is_valid_article_url "https://example.com/civicalerts.aspx?id=9".data
      "https://example.com".data = true := by
  constructor
  · unfold is_valid_article_url is_valid_article_url_nohatch
    simp only [ite_self]
  · rfl

end UrlUtils

namespace HeadlineDB

/-!
### `select_sources_for_batch` (src/headline_api/db.py lines 499-573)
-/

/-- A row of the `bighippo_sources` table (columns the function reads). -/
structure SourceRow where
  id : Nat
  hasBeenProcessed : Bool
  verified : Bool
  lastScrapedAt : Option ℤ
  name : List Char
deriving DecidableEq, Repr

/-- `ORDER BY last_scraped_at ASC NULLS FIRST` comparison. -/
def scrapedLe (a b : Option ℤ) : Bool :=
  match a, b with
  | none, _ => true
  | some _, none => false
  | some x, some y => decide (x ≤ y)

/-- `name ILIKE '%query%'` (absent filter matches everything). -/
def ilikeName (q : Option (List Char)) (r : SourceRow) : Bool :=
  match q with
  | none => true
  | some qs => Scraper.isSub (Scraper.lowerStr qs) (Scraper.lowerStr r.name)

/-- Deduplication across the two sub-queries by `id`, keeping first
occurrences (db.py lines 554-561). -/
def dedupeById : List SourceRow → List Nat → List SourceRow
  | [], _ => []
  | r :: rest, seen =>
    if r.id ∈ seen then dedupeById rest seen
    else r :: dedupeById rest (r.id :: seen)

/-- `select_sources_for_batch` (db.py lines 499-573).  Note line 516:
`twenty_four_hours_ago = datetime.now()` — the variable is assigned the
*current* time, with no 24-hour subtraction, although its name and the
surrounding comments say "24 hours ago". -/
def select_sources_for_batch (db : List SourceRow) (batchSize : Nat)
    (q : Option (List Char)) (now : ℤ) : List SourceRow :=
  let twentyFourHoursAgo := now
  let results1 :=
    (((db.filter fun r => r.hasBeenProcessed && r.verified &&
        r.lastScrapedAt.isNone && ilikeName q r).insertionSort
      fun a b => scrapedLe a.lastScrapedAt b.lastScrapedAt = true).take batchSize)
  let results2 :=
    (((db.filter fun r => r.hasBeenProcessed && r.verified &&
        (match r.lastScrapedAt with
         | some t => decide (t < twentyFourHoursAgo)
         | none => false) && ilikeName q r).insertionSort
      fun a b => scrapedLe a.lastScrapedAt b.lastScrapedAt = true).take batchSize)
  (dedupeById (results1 ++ results2) []).take batchSize

/-- C6 failing input: a source whose `last_scraped_at` is one hour before
`now` (i.e. well within the last 24 hours) is selected for the batch,
because the cutoff is `now` itself rather than `now - 24 h`.  The claim
says such a source is never returned. -/
theorem claim6_recent_source_returned :
    select_sources_for_batch
      [{ id := 1, hasBeenProcessed := true, verified := true,
         lastScrapedAt := some 96400, name := "a".data }] 10 none 100000 =
      [{ id := 1, hasBeenProcessed := true, verified := true,
         lastScrapedAt := some 96400, name := "a".data }] ∧
    (100000 : ℤ) - 86400 < 96400 := by
  refine ⟨rfl, by decide⟩

end HeadlineDB

namespace SourceProc

/-!
### Progress counters of SOURCE and BATCH jobs
(src/headline_worker/modules/source_processor.py lines 26-196,
src/headline_worker/modules/batch_processor.py lines 18-91)

`process_source` iterates the collected links; the model abstracts each
link's fate into the branch the loop takes for it, and records the
observable events of the run in order.  The persisted job-row counters
change only at `update_job_counters` events.
-/

/-- The branch the `process_source` loop takes for one link. -/
inductive LinkOutcome where
  /-- `check_processed_url` returned a status: `skipped_count += 1`. -/
  | alreadyProcessed
  /-- `is_meaningful_content` returned False: save TRASH, `skipped_count += 1`. -/
  | notMeaningful
  /-- `extract_content` returned a falsy value: `continue` with no counting. -/
  | noContent
  /-- `extract_content` raised: `error_count += 1`. -/
  | extractionFailed
  /-- classification label "trash": save TRASH, `skipped_count += 1`. -/
  | classifiedTrash
  /-- enqueue + inline `process_article_job` succeeded (saving an
  article): `processed_count += 1`. -/
  | processedOk
  /-- the enqueue / inline processing raised: `error_count += 1`. -/
  | processingFailed
deriving DecidableEq, Repr

/-- Observable events of a SOURCE run, in order. -/
inductive Effect where
  | savedTrash
  | skippedLink
  | articleSaved
  | errorEvent
  | counterUpdate (articlesSaved linksSkipped errors : Nat)
deriving DecidableEq, Repr

def outcomeEffects : LinkOutcome → List Effect
  | LinkOutcome.alreadyProcessed => [Effect.skippedLink]
  | LinkOutcome.notMeaningful => [Effect.savedTrash, Effect.skippedLink]
  | LinkOutcome.noContent => []
  | LinkOutcome.extractionFailed => [Effect.errorEvent]
  | LinkOutcome.classifiedTrash => [Effect.savedTrash, Effect.skippedLink]
  | LinkOutcome.processedOk => [Effect.articleSaved]
  | LinkOutcome.processingFailed => [Effect.errorEvent]

def outcomeDeltas : LinkOutcome → Nat × Nat × Nat
  | LinkOutcome.alreadyProcessed => (0, 1, 0)
  | LinkOutcome.notMeaningful => (0, 1, 0)
  | LinkOutcome.noContent => (0, 0, 0)
  | LinkOutcome.extractionFailed => (0, 0, 1)
  | LinkOutcome.classifiedTrash => (0, 1, 0)
  | LinkOutcome.processedOk => (1, 0, 0)
  | LinkOutcome.processingFailed => (0, 0, 1)

/-- The link loop of `process_source` (source_processor.py lines 75-166):
stop once `processed_count + skipped_count >= limit`, else take the
link's branch.  Returns final `(processed, skipped, errors)` and the
event log. -/
def processLoop (limit : Nat) :
    List LinkOutcome → Nat → Nat → Nat → (Nat × Nat × Nat) × List Effect
  | [], p, s, e => ((p, s, e), [])
  | o :: rest, p, s, e =>
    if limit ≤ p + s then ((p, s, e), [])
    else
      let d := outcomeDeltas o
      let r := processLoop limit rest (p + d.1) (s + d.2.1) (e + d.2.2)
      (r.1, outcomeEffects o ++ r.2)

/-- `process_source` (source_processor.py lines 26-196), event view: an
empty link list returns early with *no* counter update; otherwise the
loop runs and `update_job_counters` is called exactly once, at the end,
with the final tallies. -/
def process_source_events (limit : Nat) (links : List LinkOutcome) : List Effect :=
  if links.isEmpty then []
  else
    let r := processLoop limit links 0 0 0
    r.2 ++ [Effect.counterUpdate r.1.1 r.1.2.1 r.1.2.2]

/-- The job row's counters as persisted after a prefix of the event log
(counters start at 0 on a fresh job and change only on
`update_job_counters`). -/
def persistedCounters (trace : List Effect) : Nat × Nat × Nat :=
  trace.foldl
    (fun acc e =>
      match e with
      | Effect.counterUpdate a s er => (a, s, er)
      | _ => acc)
    (0, 0, 0)

def countSaved (trace : List Effect) : Nat :=
  (trace.filter fun e => decide (e = Effect.articleSaved)).length

def countSkipped (trace : List Effect) : Nat :=
  (trace.filter fun e => decide (e = Effect.skippedLink)).length

def countErrors (trace : List Effect) : Nat :=
  (trace.filter fun e => decide (e = Effect.errorEvent)).length

def noCounterUpdate (trace : List Effect) : Prop :=
  ∀ a s er, Effect.counterUpdate a s er ∉ trace

/-- The BATCH fan-out counter protocol
(batch_processor.py lines 47-87): after each source finishes,
`update_job_counters(articles_saved := sources_processed, errors :=
errors)` — the per-source outcomes are abstracted to success flags. -/
inductive BatchEffect where
  | sourceDone
  | sourceError
  | update (articlesSaved errors : Nat)
deriving DecidableEq, Repr

def batchLoop : List Bool → Nat → Nat → List BatchEffect
  | [], _, _ => []
  | ok :: rest, done, errs =>
    if ok then
      BatchEffect.sourceDone :: BatchEffect.update (done + 1) errs ::
        batchLoop rest (done + 1) errs
    else
      BatchEffect.sourceError :: BatchEffect.update done (errs + 1) ::
        batchLoop rest done (errs + 1)

def persistedBatchFrom (init : Nat × Nat) (trace : List BatchEffect) : Nat × Nat :=
  trace.foldl
    (fun acc e =>
      match e with
      | BatchEffect.update a er => (a, er)
      | _ => acc)
    init

def persistedBatch (trace : List BatchEffect) : Nat × Nat :=
  persistedBatchFrom (0, 0) trace

theorem countSaved_append (a b : List Effect) :
    countSaved (a ++ b) = countSaved a + countSaved b := by
  simp [countSaved, List.filter_append]

theorem countSkipped_append (a b : List Effect) :
    countSkipped (a ++ b) = countSkipped a + countSkipped b := by
  simp [countSkipped, List.filter_append]

theorem countErrors_append (a b : List Effect) :
    countErrors (a ++ b) = countErrors a + countErrors b := by
  simp [countErrors, List.filter_append]

/-- The loop's final tallies are its starting tallies plus the per-event
counts of its own event log, and the loop itself never writes the
persisted counters. -/
theorem processLoop_spec (limit : Nat) :
    ∀ (links : List LinkOutcome) (p s e : Nat),
      (processLoop limit links p s e).1 =
        (p + countSaved (processLoop limit links p s e).2,
         s + countSkipped (processLoop limit links p s e).2,
         e + countErrors (processLoop limit links p s e).2) ∧
      noCounterUpdate (processLoop limit links p s e).2 := by
  intro links
  induction links with
  | nil =>
    intro p s e
    refine ⟨?_, ?_⟩
    · simp [processLoop, countSaved, countSkipped, countErrors]
    · intro a s' er hmem
      simp [processLoop] at hmem
  | cons o rest ih =>
    intro p s e
    by_cases hstop : limit ≤ p + s
    · refine ⟨?_, ?_⟩
      · simp [processLoop, hstop, countSaved, countSkipped, countErrors]
      · intro a s' er hmem
        simp [processLoop, hstop] at hmem
    · have hloop : processLoop limit (o :: rest) p s e =
          ((processLoop limit rest (p + (outcomeDeltas o).1)
              (s + (outcomeDeltas o).2.1) (e + (outcomeDeltas o).2.2)).1,
            outcomeEffects o ++
              (processLoop limit rest (p + (outcomeDeltas o).1)
                (s + (outcomeDeltas o).2.1) (e + (outcomeDeltas o).2.2)).2) := by
        simp [processLoop, hstop]
      have hcounts : countSaved (outcomeEffects o) = (outcomeDeltas o).1 ∧
          countSkipped (outcomeEffects o) = (outcomeDeltas o).2.1 ∧
          countErrors (outcomeEffects o) = (outcomeDeltas o).2.2 := by
        cases o <;> exact ⟨rfl, rfl, rfl⟩
      have hno : ∀ a s' er,
          Effect.counterUpdate a s' er ∉ outcomeEffects o := by
        intro a s' er hmem
        cases o <;> simp [outcomeEffects] at hmem
      rcases ih (p + (outcomeDeltas o).1) (s + (outcomeDeltas o).2.1)
          (e + (outcomeDeltas o).2.2) with ⟨ih1, ih2⟩
      refine ⟨?_, ?_⟩
      · rw [hloop]
        simp only [countSaved_append, countSkipped_append, countErrors_append,
          hcounts.1, hcounts.2.1, hcounts.2.2]
        rw [ih1]
        refine Prod.ext ?_ (Prod.ext ?_ ?_) <;> simp <;> omega
      · intro a s' er hmem
        rw [hloop] at hmem
        simp only [List.mem_append] at hmem
        rcases hmem with hmem | hmem
        · exact hno a s' er hmem
        · exact ih2 a s' er hmem

theorem persistedCounters_append_update (body : List Effect) (a s e : Nat) :
    persistedCounters (body ++ [Effect.counterUpdate a s e]) = (a, s, e) := by
  simp [persistedCounters, List.foldl_append]

theorem persistedBatchFrom_batchLoop :
    ∀ (l : List Bool) (done errs : Nat) (init : Nat × Nat),
      persistedBatchFrom init (batchLoop l done errs) =
        if l.isEmpty then init else (done + l.count true, errs + l.count false) := by
  intro l
  induction l with
  | nil => intro done errs init; simp [batchLoop, persistedBatchFrom]
  | cons ok rest ih =>
    intro done errs init
    cases ok with
    | true =>
      have hstep : persistedBatchFrom init (batchLoop (true :: rest) done errs) =
          persistedBatchFrom (done + 1, errs) (batchLoop rest (done + 1) errs) := rfl
      rw [hstep, ih]
      cases rest with
      | nil => simp
      | cons b bs =>
        rw [if_neg (by simp), if_neg (by simp)]
        refine Prod.ext ?_ ?_
        · simp [List.count_cons]
          omega
        · simp [List.count_cons]
    | false =>
      have hstep : persistedBatchFrom init (batchLoop (false :: rest) done errs) =
          persistedBatchFrom (done, errs + 1) (batchLoop rest done (errs + 1)) := rfl
      rw [hstep, ih]
      cases rest with
      | nil => simp
      | cons b bs =>
        rw [if_neg (by simp), if_neg (by simp)]
        refine Prod.ext ?_ ?_
        · simp [List.count_cons]
        · simp [List.count_cons]
          omega

/-- C10 counterexample: the SOURCE pipeline writes the job counters once,
after the loop; at the intermediate point just after an article has been
saved (one event into the run) the persisted counters are still (0,0,0)
although one article has actually been saved — so the counters do *not*
equal the work performed at every intermediate point, and a crash there
loses the progress. -/
theorem claim10_intermediate_counterexample :
    process_source_events 15 [LinkOutcome.processedOk] =
      [Effect.articleSaved, Effect.counterUpdate 1 0 0] ∧
    persistedCounters ((process_source_events 15 [LinkOutcome.processedOk]).take 1) =
      (0, 0, 0) ∧
    countSaved ((process_source_events 15 [LinkOutcome.processedOk]).take 1) = 1 ∧
    (persistedCounters ((process_source_events 15 [LinkOutcome.processedOk]).take 1)).1 ≠
      countSaved ((process_source_events 15 [LinkOutcome.processedOk]).take 1) := by
  refine ⟨rfl, rfl, rfl, by decide⟩

/-- C10 (amended): counters are not updated incrementally.  For a SOURCE
job the three counters are written exactly once, after the link loop
finishes, and that single write holds the true tallies of the whole run
(articles saved, links skipped, errors); an empty link collection returns
early without any counter write.  For a BATCH job the counters are
rewritten after each source finishes, with `articles_saved` equal to the
number of *sources* completed so far, not the number of articles. -/
theorem claim10_counter_protocol (limit : Nat) (links : List LinkOutcome)
    (l : List Bool) :
    (links ≠ [] →
      ∃ body, process_source_events limit links =
          body ++ [Effect.counterUpdate (countSaved body) (countSkipped body)
            (countErrors body)] ∧
        noCounterUpdate body ∧
        persistedCounters (process_source_events limit links) =
          (countSaved body, countSkipped body, countErrors body)) ∧
    (links = [] → process_source_events limit links = []) ∧
    persistedBatch (batchLoop l 0 0) = (l.count true, l.count false) := by
  refine ⟨?_, ?_, ?_⟩
  · intro hne
    have hnem : links.isEmpty = false := by
      cases links with
      | nil => exact absurd rfl hne
      | cons a b => rfl
    rcases processLoop_spec limit links 0 0 0 with ⟨h1, h2⟩
    refine ⟨(processLoop limit links 0 0 0).2, ?_, h2, ?_⟩
    · unfold process_source_events
      rw [hnem]
      simp only [Bool.false_eq_true, if_false]
      rw [h1]
      simp
    · unfold process_source_events
      rw [hnem]
      simp only [Bool.false_eq_true, if_false]
      rw [h1]
      simp only [Nat.zero_add]
      exact persistedCounters_append_update _ _ _ _
  · intro hnil
    subst hnil
    rfl
  · have := persistedBatchFrom_batchLoop l 0 0 (0, 0)
    unfold persistedBatch
    rw [this]
    cases l with
    | nil => simp
    | cons a b => simp

/-- C10 witness: concrete runs of the SOURCE and BATCH counter
protocols. -/
theorem claim10_counter_protocol_witness :
    (∃ body, process_source_events 15 [LinkOutcome.processedOk] =
        body ++ [Effect.counterUpdate (countSaved body) (countSkipped body)
          (countErrors body)] ∧
      noCounterUpdate body ∧
      persistedCounters (process_source_events 15 [LinkOutcome.processedOk]) =
        (countSaved body, countSkipped body, countErrors body)) ∧
    persistedBatch (batchLoop [true, false] 0 0) =
      ([true, false].count true, [true, false].count false) :=
  ⟨(claim10_counter_protocol 15 [LinkOutcome.processedOk] [true, false]).1
      (by simp),
    (claim10_counter_protocol 15 [LinkOutcome.processedOk] [true, false]).2.2⟩

end SourceProc

namespace JobQueue

/-!
### Atomic job claim (src/headline_api/db.py lines 630-663)

`claim_job` runs, in one transaction,
`UPDATE scrape_jobs SET status='in_progress', updated_at=now() WHERE id =
(SELECT id FROM scrape_jobs WHERE status='queued' ORDER BY id LIMIT 1 FOR
UPDATE SKIP LOCKED) RETURNING id, job_type, payload`.

Model: each row carries a `lockedBy` field (the `FOR UPDATE` row lock).
A worker's claim is two atomic phases interleaved arbitrarily with the
other workers': the *select* phase picks the lowest-id row that is
`queued` and unlocked (skipping locked rows, as `SKIP LOCKED` does) and
locks it — or observes no candidate and returns `NULL`; the *commit*
phase applies the update (status, `updated_at`) and releases the lock,
returning `(id, job_type, payload)`.  The status write and the return
happen in the same atomic commit, modelling the single transaction.
-/

inductive JStatus where
  | queued
  | inProgress
  | jobDone
  | jobError
  | cancelled
deriving DecidableEq, Repr

structure Job where
  id : Nat
  jobType : List Char
  payload : List Char
  status : JStatus
  updatedAt : ℤ
  lockedBy : Option Nat
deriving DecidableEq, Repr

/-- A worker's progress through its single `claim_job` call. -/
inductive Phase where
  | idle
  | selected (jid : Nat)
  | finished (r : Option (Nat × List Char × List Char)) (t : ℤ)
deriving DecidableEq, Repr

structure QState where
  jobs : List Job
  phases : List Phase

/-- The predicate of the claiming subquery on one row: `status = 'queued'`
and not locked by any transaction (`SKIP LOCKED`). -/
def availPred (j : Job) : Bool :=
  decide (j.status = JStatus.queued) && j.lockedBy.isNone

/-- Rows visible to the claiming subquery. -/
def availableJobs (jobs : List Job) : List Job :=
  jobs.filter availPred

/-- `ORDER BY id LIMIT 1`. -/
def minById : List Job → Option Job
  | [] => none
  | j :: rest =>
    match minById rest with
    | none => some j
    | some m => if j.id < m.id then some j else some m

def setJob (jobs : List Job) (jid : Nat) (f : Job → Job) : List Job :=
  jobs.map fun j => if j.id = jid then f j else j

/-- Take the `FOR UPDATE` row lock on behalf of worker `w`. -/
def lockJob (w : Nat) : Job → Job :=
  fun jb => { jb with lockedBy := some w }

/-- The committed `UPDATE ... SET status='in_progress', updated_at=now()`;
the commit also releases the row lock. -/
def commitJob (t : ℤ) : Job → Job :=
  fun jb => { jb with status := JStatus.inProgress, updatedAt := t, lockedBy := none }

/-- One scheduler step: worker `w` advances its claim at time `t`. -/
def workerStep (s : QState) (w : Nat) (t : ℤ) : QState :=
  match s.phases.get? w with
  | none => s
  | some Phase.idle =>
    match minById (availableJobs s.jobs) with
    | none => { s with phases := s.phases.set w (Phase.finished none t) }
    | some j =>
      { jobs := setJob s.jobs j.id (lockJob w),
        phases := s.phases.set w (Phase.selected j.id) }
  | some (Phase.selected jid) =>
    let r := (s.jobs.find? fun j => decide (j.id = jid)).map
      fun j => (j.id, j.jobType, j.payload)
    { jobs := setJob s.jobs jid (commitJob t),
      phases := s.phases.set w (Phase.finished r t) }
  | some (Phase.finished _ _) => s

def runSchedule (s : QState) : List (Nat × ℤ) → QState
  | [] => s
  | (w, t) :: rest => runSchedule (workerStep s w t) rest

def initState (jobs : List Job) (k : Nat) : QState :=
  { jobs := jobs, phases := List.replicate k Phase.idle }

/-- The id a worker currently holds (selected and locked, or already
claimed). -/
def heldId : Phase → Option Nat
  | Phase.idle => none
  | Phase.selected jid => some jid
  | Phase.finished (some r) _ => some r.1
  | Phase.finished none _ => none

def countHeld (phases : List Phase) : Nat :=
  (phases.filter fun p => (heldId p).isSome).length

theorem minById_eq_none : ∀ (l : List Job), minById l = none → l = [] := by
  intro l h
  cases l with
  | nil => rfl
  | cons j rest =>
    unfold minById at h
    split at h
    · simp at h
    · split at h <;> simp at h

theorem minById_mem : ∀ (l : List Job) (m : Job), minById l = some m → m ∈ l := by
  intro l
  induction l with
  | nil => intro m h; exact absurd h (by simp [minById])
  | cons j rest ih =>
    intro m h
    unfold minById at h
    split at h
    · cases h; exact List.mem_cons_self _ _
    · rename_i m' hr
      split at h
      · cases h; exact List.mem_cons_self _ _
      · cases h; exact List.mem_cons_of_mem _ (ih _ hr)

theorem minById_le : ∀ (l : List Job) (m : Job), minById l = some m →
    ∀ j ∈ l, m.id ≤ j.id := by
  intro l
  induction l with
  | nil => intro m h; exact absurd h (by simp [minById])
  | cons j rest ih =>
    intro m h j' hj'
    unfold minById at h
    split at h
    · rename_i hr
      cases h
      have hnil : rest = [] := minById_eq_none rest hr
      subst hnil
      simp at hj'
      rw [hj']
    · rename_i m' hr
      split at h
      · rename_i hlt
        cases h
        rcases List.mem_cons.mp hj' with h' | h'
        · rw [h']
        · have := ih m' hr j' h'
          omega
      · rename_i hlt
        cases h
        rcases List.mem_cons.mp hj' with h' | h'
        · subst h'
          omega
        · exact ih _ hr j' h'

theorem setJob_map_id (jobs : List Job) (jid : Nat) (f : Job → Job)
    (hf : ∀ j, (f j).id = j.id) :
    (setJob jobs jid f).map Job.id = jobs.map Job.id := by
  unfold setJob
  rw [List.map_map]
  apply List.map_congr_left
  intro j _
  by_cases h : j.id = jid
  · simp [h, hf]
  · simp [h]

theorem setJob_of_absent (jobs : List Job) (jid : Nat) (f : Job → Job)
    (h : ∀ j ∈ jobs, j.id ≠ jid) : setJob jobs jid f = jobs := by
  unfold setJob
  have : ∀ j ∈ jobs, (if j.id = jid then f j else j) = j := by
    intro j hj
    rw [if_neg (h j hj)]
  rw [List.map_congr_left this, List.map_id']

theorem length_filter_setJob (p : Job → Bool) (jid : Nat) (f : Job → Job) :
    ∀ (jobs : List Job) (j0 : Job), (jobs.map Job.id).Nodup → j0 ∈ jobs →
    j0.id = jid →
    ((setJob jobs jid f).filter p).length + (if p j0 then 1 else 0)
      = (jobs.filter p).length + (if p (f j0) then 1 else 0) := by
  intro jobs
  induction jobs with
  | nil => intro j0 _ h; exact absurd h (List.not_mem_nil _)
  | cons j rest ih =>
    intro j0 hnd hmem hid
    rw [List.map_cons, List.nodup_cons] at hnd
    by_cases hj : j.id = jid
    · have hj0 : j0 = j := by
        rcases List.mem_cons.mp hmem with h' | h'
        · exact h'
        · exfalso
          apply hnd.1
          rw [hj, ← hid]
          exact List.mem_map_of_mem Job.id h' 
      subst hj0
      have habs : ∀ j' ∈ rest, j'.id ≠ jid := by
        intro j' hj' he
        exact hnd.1 (by rw [hj, ← he]; exact List.mem_map_of_mem Job.id hj')
      unfold setJob
      rw [List.map_cons, if_pos hj, ← setJob, setJob_of_absent rest jid f habs]
      rw [List.filter_cons, List.filter_cons]
      by_cases hp : p j0 <;> by_cases hpf : p (f j0) <;>
        simp [hp, hpf]
    · have hj0 : j0 ∈ rest := by
        rcases List.mem_cons.mp hmem with h' | h'
        · exact absurd (h' ▸ hid) hj
        · exact h'
      unfold setJob
      rw [List.map_cons, if_neg hj, ← setJob]
      rw [List.filter_cons, List.filter_cons]
      have := ih j0 hnd.2 hj0 hid
      by_cases hp : p j <;> simp [hp] <;> omega

theorem countHeld_cons (p : Phase) (rest : List Phase) :
    countHeld (p :: rest) = (if (heldId p).isSome then 1 else 0) + countHeld rest := by
  unfold countHeld
  rw [List.filter_cons]
  by_cases h : (heldId p).isSome
  · simp [h]
    omega
  · simp [h]

theorem countHeld_set : ∀ (phases : List Phase) (w : Nat) (old new_ : Phase),
    phases.get? w = some old →
    countHeld (phases.set w new_) + (if (heldId old).isSome then 1 else 0)
      = countHeld phases + (if (heldId new_).isSome then 1 else 0) := by
  intro phases
  induction phases with
  | nil => intro w old new_ h; simp at h
  | cons p rest ih =>
    intro w old new_ h
    cases w with
    | zero =>
      simp only [List.get?] at h
      cases h
      rw [List.set_cons_zero, countHeld_cons, countHeld_cons]
      omega
    | succ w' =>
      simp only [List.get?] at h
      rw [List.set_cons_succ, countHeld_cons, countHeld_cons]
      have := ih w' old new_ h
      omega

theorem countHeld_lt_of_none : ∀ (phases : List Phase) (w : Nat) (p : Phase),
    phases.get? w = some p → heldId p = none → countHeld phases < phases.length := by
  intro phases
  induction phases with
  | nil => intro w p h; simp at h
  | cons q rest ih =>
    intro w p h hnone
    cases w with
    | zero =>
      simp only [List.get?] at h
      cases h
      rw [countHeld_cons, hnone]
      have : countHeld rest ≤ rest.length := List.length_filter_le _ _
      simp
      omega
    | succ w' =>
      simp only [List.get?] at h
      rw [countHeld_cons]
      have := ih w' p h hnone
      have hle : (if (heldId q).isSome then 1 else 0) ≤ 1 := by split <;> omega
      simp only [List.length_cons]
      omega

theorem listGetSetSame {α : Type} : ∀ (l : List α) (w : Nat) (x old : α),
    l.get? w = some old → (l.set w x).get? w = some x := by
  intro l
  induction l with
  | nil => intro w x old h; simp at h
  | cons a rest ih =>
    intro w x old h
    cases w with
    | zero => rfl
    | succ w' =>
      simp only [List.get?] at h ⊢
      exact ih w' x old h

theorem listGetSetOther {α : Type} : ∀ (l : List α) (w w' : Nat) (x : α),
    w ≠ w' → (l.set w x).get? w' = l.get? w' := by
  intro l
  induction l with
  | nil => intro w w' x _; simp
  | cons a rest ih =>
    intro w w' x hne
    cases w with
    | zero =>
      cases w' with
      | zero => exact absurd rfl hne
      | succ v' => rfl
    | succ u' =>
      cases w' with
      | zero => rfl
      | succ v' =>
        rw [List.set_cons_succ]
        simp only [List.get?]
        exact ih u' v' x (fun h => hne (by rw [h]))

theorem id_unique : ∀ (jobs : List Job), (jobs.map Job.id).Nodup →
    ∀ j1 ∈ jobs, ∀ j2 ∈ jobs, j1.id = j2.id → j1 = j2 := by
  intro jobs
  induction jobs with
  | nil => intro _ j1 h1; exact absurd h1 (List.not_mem_nil _)
  | cons a rest ih =>
    intro hnd j1 h1 j2 h2 hid
    rw [List.map_cons, List.nodup_cons] at hnd
    rcases List.mem_cons.mp h1 with h1' | h1' <;>
      rcases List.mem_cons.mp h2 with h2' | h2'
    · rw [h1', h2']
    · exfalso
      apply hnd.1
      rw [← h1', hid]
      exact List.mem_map_of_mem Job.id h2'
    · exfalso
      apply hnd.1
      rw [← h2', ← hid]
      exact List.mem_map_of_mem Job.id h1'
    · exact ih hnd.2 j1 h1' j2 h2' hid

theorem find_by_id : ∀ (jobs : List Job) (j : Job), (jobs.map Job.id).Nodup →
    j ∈ jobs → jobs.find? (fun j' => decide (j'.id = j.id)) = some j := by
  intro jobs
  induction jobs with
  | nil => intro j _ h; exact absurd h (List.not_mem_nil _)
  | cons a rest ih =>
    intro j hnd hj
    rw [List.map_cons, List.nodup_cons] at hnd
    by_cases ha : a.id = j.id
    · have : a = j := by
        rcases List.mem_cons.mp hj with h' | h'
        · rw [h']
        · exfalso
          apply hnd.1
          rw [ha]
          exact List.mem_map_of_mem Job.id h'
      rw [List.find?_cons_of_pos _ (by simp [ha]), this]
    · have hj' : j ∈ rest := by
        rcases List.mem_cons.mp hj with h' | h'
        · exact absurd (by rw [h']) ha
        · exact h'
      rw [List.find?_cons_of_neg _ (by simp [ha])]
      exact ih j hnd.2 hj'

theorem mem_avail (jobs : List Job) (j : Job) :
    j ∈ availableJobs jobs ↔ j ∈ jobs ∧ availPred j = true := by
  unfold availableJobs
  exact List.mem_filter

theorem avail_setJob_subset (jobs : List Job) (jid : Nat) (f : Job → Job)
    (hf : ∀ j, availPred (f j) = false) :
    ∀ j' ∈ availableJobs (setJob jobs jid f), j' ∈ availableJobs jobs ∧ j'.id ≠ jid := by
  intro j' hj'
  rcases (mem_avail _ _).mp hj' with ⟨hmem, hpred⟩
  rcases List.mem_map.mp hmem with ⟨j, hj, hup⟩
  by_cases h : j.id = jid
  · rw [if_pos h] at hup
    rw [← hup] at hpred
    rw [hf j] at hpred
    exact absurd hpred (by simp)
  · rw [if_neg h] at hup
    subst hup
    exact ⟨(mem_avail _ _).mpr ⟨hj, hpred⟩, h⟩

theorem avail_setJob_keep (jobs : List Job) (jid : Nat) (f : Job → Job) :
    ∀ j ∈ availableJobs jobs, j.id ≠ jid → j ∈ availableJobs (setJob jobs jid f) := by
  intro j hj hne
  rcases (mem_avail _ _).mp hj with ⟨hmem, hpred⟩
  refine (mem_avail _ _).mpr ⟨?_, hpred⟩
  have : (if j.id = jid then f j else j) = j := if_neg hne
  rw [← this]
  exact List.mem_map_of_mem _ hmem

theorem mem_setJob_inv (jobs : List Job) (jid : Nat) (f : Job → Job) :
    ∀ j' ∈ setJob jobs jid f, ∃ j ∈ jobs, j' = if j.id = jid then f j else j := by
  intro j' hj'
  rcases List.mem_map.mp hj' with ⟨j, hj, hup⟩
  exact ⟨j, hj, hup.symm⟩

theorem forall₂_mem_left {R : Job → Job → Prop} :
    ∀ {l l' : List Job}, List.Forall₂ R l l' → ∀ a ∈ l, ∃ b ∈ l', R a b := by
  intro l l' h
  induction h with
  | nil => intro a ha; exact absurd ha (List.not_mem_nil _)
  | cons hr _ ih =>
    intro a ha
    rcases List.mem_cons.mp ha with h' | h'
    · exact ⟨_, List.mem_cons_self _ _, h' ▸ hr⟩
    · rcases ih a h' with ⟨b, hb, hab⟩
      exact ⟨b, List.mem_cons_of_mem _ hb, hab⟩

theorem forall₂_map_left_of_mem {R S : Job → Job → Prop} (f : Job → Job) :
    ∀ {l l' : List Job}, List.Forall₂ R l l' →
    (∀ a ∈ l, ∀ b ∈ l', R a b → S (f a) b) → List.Forall₂ S (l.map f) l' := by
  intro l l' h
  induction h with
  | nil => intro _; exact List.Forall₂.nil
  | cons hr htl ih =>
    intro himp
    rw [List.map_cons]
    exact List.Forall₂.cons
      (himp _ (List.mem_cons_self _ _) _ (List.mem_cons_self _ _) hr)
      (ih fun a ha b hb hab =>
        himp a (List.mem_cons_of_mem _ ha) b (List.mem_cons_of_mem _ hb) hab)

theorem get?_replicate_idle : ∀ (k w : Nat) (p : Phase),
    (List.replicate k Phase.idle).get? w = some p → p = Phase.idle := by
  intro k
  induction k with
  | zero => intro w p h; simp at h
  | succ k' ih =>
    intro w p h
    cases w with
    | zero =>
      rw [List.replicate_succ] at h
      simp only [List.get?] at h
      cases h
      rfl
    | succ w' =>
      rw [List.replicate_succ] at h
      simp only [List.get?] at h
      exact ih w' p h

theorem countHeld_replicate_idle : ∀ (k : Nat),
    countHeld (List.replicate k Phase.idle) = 0 := by
  intro k
  induction k with
  | zero => rfl
  | succ k' ih =>
    rw [List.replicate_succ, countHeld_cons, ih]
    rfl

/-- Invariant relating the live queue state to the initial table `J0`,
for `k` workers.  It is preserved by every `workerStep` provided
`k ≤ (availableJobs J0).length`. -/
structure QInv (J0 : List Job) (k : Nat) (s : QState) : Prop where
  plen : s.phases.length = k
  nodup : (J0.map Job.id).Nodup
  noInProg : ∀ j ∈ J0, j.status ≠ JStatus.inProgress
  ids : s.jobs.map Job.id = J0.map Job.id
  jobs_rel : List.Forall₂ (fun j j0 => j.id = j0.id ∧ j.jobType = j0.jobType ∧
      j.payload = j0.payload ∧
      (j.status = j0.status ∨
        (j0.status = JStatus.queued ∧ j.status = JStatus.inProgress))) s.jobs J0
  locks : ∀ j ∈ s.jobs, ∀ w, j.lockedBy = some w →
      j.status = JStatus.queued ∧ s.phases.get? w = some (Phase.selected j.id)
  sel : ∀ w jid, s.phases.get? w = some (Phase.selected jid) →
      ∃ j ∈ s.jobs, j.id = jid ∧ j.status = JStatus.queued ∧ j.lockedBy = some w
  fin : ∀ w i jt pl t, s.phases.get? w = some (Phase.finished (some (i, jt, pl)) t) →
      ∃ j ∈ s.jobs, j.id = i ∧ j.status = JStatus.inProgress ∧ j.updatedAt = t ∧
        j.jobType = jt ∧ j.payload = pl ∧ j.lockedBy = none
  distinct : ∀ w1 w2 p1 p2, w1 ≠ w2 → s.phases.get? w1 = some p1 →
      s.phases.get? w2 = some p2 → ∀ i, heldId p1 = some i → heldId p2 ≠ some i
  count : (availableJobs s.jobs).length + countHeld s.phases = (availableJobs J0).length
  noNone : ∀ w t, s.phases.get? w ≠ some (Phase.finished none t)
  minsel : ∀ w p, s.phases.get? w = some p → ∀ i, heldId p = some i →
      ∀ j ∈ availableJobs s.jobs, i < j.id
  unheld : ∀ j0 ∈ J0, j0.status = JStatus.queued →
      (∀ w p, s.phases.get? w = some p → heldId p ≠ some j0.id) →
      ∃ j ∈ availableJobs s.jobs, j.id = j0.id

theorem init_inv (J0 : List Job) (k : Nat) (hnd : (J0.map Job.id).Nodup)
    (hunlocked : ∀ j ∈ J0, j.lockedBy = none)
    (hq : ∀ j ∈ J0, j.status ≠ JStatus.inProgress) :
    QInv J0 k (initState J0 k) := by
  refine ⟨?_, hnd, hq, rfl, ?_, ?_, ?_, ?_, ?_, ?_, ?_, ?_, ?_⟩
  · exact List.length_replicate _ _
  · exact List.forall₂_same.mpr fun j _ => ⟨rfl, rfl, rfl, Or.inl rfl⟩
  · intro j hj w hl
    rw [hunlocked j hj] at hl
    exact absurd hl (by simp)
  · intro w jid h
    have := get?_replicate_idle k w _ h
    simp at this
  · intro w i jt pl t h
    have := get?_replicate_idle k w _ h
    simp at this
  · intro w1 w2 p1 p2 _ h1 h2 i hi
    rw [get?_replicate_idle k w1 _ h1] at hi
    exact absurd hi (by simp [heldId])
  · show (availableJobs J0).length + countHeld (List.replicate k Phase.idle)
        = (availableJobs J0).length
    rw [countHeld_replicate_idle]
    omega
  · intro w t h
    have := get?_replicate_idle k w _ h
    simp at this
  · intro w p h i hi
    rw [get?_replicate_idle k w _ h] at hi
    exact absurd hi (by simp [heldId])
  · intro j0 hj0 hst _
    refine ⟨j0, ?_, rfl⟩
    refine (mem_avail _ _).mpr ⟨hj0, ?_⟩
    unfold availPred
    rw [hst, hunlocked j0 hj0]
    rfl

theorem mem_setJob_self (jobs : List Job) (jid : Nat) (f : Job → Job) (j : Job)
    (hj : j ∈ jobs) (h : j.id ≠ jid) : j ∈ setJob jobs jid f := by
  have h2 : (fun j' => if j'.id = jid then f j' else j') j ∈ setJob jobs jid f :=
    List.mem_map_of_mem _ hj
  simpa [if_neg h] using h2

theorem mem_setJob_target (jobs : List Job) (jid : Nat) (f : Job → Job) (j : Job)
    (hj : j ∈ jobs) (h : j.id = jid) : f j ∈ setJob jobs jid f := by
  have h2 : (fun j' => if j'.id = jid then f j' else j') j ∈ setJob jobs jid f :=
    List.mem_map_of_mem _ hj
  simpa [if_pos h] using h2

theorem select_inv (J0 : List Job) (k : Nat) (s : QState) (w : Nat) (m : Job)
    (hinv : QInv J0 k s) (hp : s.phases.get? w = some Phase.idle)
    (hm : minById (availableJobs s.jobs) = some m) :
    QInv J0 k { jobs := setJob s.jobs m.id (lockJob w),
                phases := s.phases.set w (Phase.selected m.id) } := by
  have hmA : m ∈ availableJobs s.jobs := minById_mem _ _ hm
  have hmem : m ∈ s.jobs := ((mem_avail _ _).mp hmA).1
  have hpred : availPred m = true := ((mem_avail _ _).mp hmA).2
  have hq : m.status = JStatus.queued := by
    unfold availPred at hpred
    simp at hpred
    exact hpred.1
  have hnl : m.lockedBy = none := by
    unfold availPred at hpred
    simp at hpred
    exact hpred.2
  have sjnodup : (s.jobs.map Job.id).Nodup := by
    rw [hinv.ids]
    exact hinv.nodup
  have hlockf : ∀ j, availPred (lockJob w j) = false := by
    intro j
    simp [availPred, lockJob]
  refine ⟨?_, hinv.nodup, hinv.noInProg, ?_, ?_, ?_, ?_, ?_, ?_, ?_, ?_, ?_, ?_⟩
  · show (s.phases.set w (Phase.selected m.id)).length = k
    rw [List.length_set]
    exact hinv.plen
  · show (setJob s.jobs m.id (lockJob w)).map Job.id = J0.map Job.id
    rw [setJob_map_id s.jobs m.id (lockJob w) (fun j => rfl)]
    exact hinv.ids
  · exact forall₂_map_left_of_mem _ hinv.jobs_rel (fun a _ b _ hab => by
      by_cases h : a.id = m.id
      · rw [if_pos h]
        exact hab
      · rw [if_neg h]
        exact hab)
  · intro j hj w' hl
    rcases mem_setJob_inv _ _ _ j hj with ⟨j'', hj'', hup⟩
    by_cases h : j''.id = m.id
    · rw [if_pos h] at hup
      have hjm : m = j'' := (id_unique s.jobs sjnodup j'' hj'' m hmem h).symm
      subst hjm
      subst hup
      have hw : w = w' := by simpa [lockJob] using hl
      subst hw
      refine ⟨hq, ?_⟩
      exact listGetSetSame s.phases w (Phase.selected m.id) Phase.idle hp
    · rw [if_neg h] at hup
      subst hup
      rcases hinv.locks j hj'' w' hl with ⟨hst, hph⟩
      have hwne : w' ≠ w := by
        intro he
        rw [he, hp] at hph
        simp at hph
      refine ⟨hst, ?_⟩
      rw [listGetSetOther s.phases w w' _ (Ne.symm hwne)]
      exact hph
  · intro w' jid h'
    by_cases hww : w' = w
    · subst hww
      rw [listGetSetSame s.phases w' (Phase.selected m.id) Phase.idle hp] at h'
      simp only [Option.some.injEq, Phase.selected.injEq] at h'
      refine ⟨lockJob w' m, mem_setJob_target _ _ _ m hmem rfl, h', hq, rfl⟩
    · rw [listGetSetOther s.phases w w' _ (fun he => hww he.symm)] at h'
      rcases hinv.sel w' jid h' with ⟨j, hj, hjid, hjst, hjlk⟩
      have hne : j.id ≠ m.id := by
        intro he
        have heq : j = m := id_unique s.jobs sjnodup j hj m hmem he
        rw [heq, hnl] at hjlk
        cases hjlk
      exact ⟨j, mem_setJob_self _ _ _ j hj hne, hjid, hjst, hjlk⟩
  · intro w' i jt pl t h'
    have hww : w' ≠ w := by
      intro he
      rw [he, listGetSetSame s.phases w (Phase.selected m.id) Phase.idle hp] at h'
      simp at h'
    rw [listGetSetOther s.phases w w' _ (Ne.symm hww)] at h'
    rcases hinv.fin w' i jt pl t h' with ⟨j, hj, hji, hjst, hjup, hjt, hjpl, hjlk⟩
    have hne : j.id ≠ m.id := by
      intro he
      have heq : j = m := id_unique s.jobs sjnodup j hj m hmem he
      rw [heq, hq] at hjst
      simp at hjst
    exact ⟨j, mem_setJob_self _ _ _ j hj hne, hji, hjst, hjup, hjt, hjpl, hjlk⟩
  · intro w1 w2 p1 p2 hne h1 h2 i hi1
    by_cases hw1 : w1 = w
    · subst hw1
      rw [listGetSetSame s.phases w1 (Phase.selected m.id) Phase.idle hp] at h1
      cases h1
      simp only [heldId, Option.some.injEq] at hi1
      subst hi1
      rw [listGetSetOther s.phases w1 w2 _ hne] at h2
      intro hi2
      have := hinv.minsel w2 p2 h2 m.id hi2 m hmA
      omega
    · by_cases hw2 : w2 = w
      · subst hw2
        rw [listGetSetSame s.phases w2 (Phase.selected m.id) Phase.idle hp] at h2
        cases h2
        rw [listGetSetOther s.phases w2 w1 _ (fun he => hw1 he.symm)] at h1
        intro hi2
        simp only [heldId, Option.some.injEq] at hi2
        subst hi2
        have := hinv.minsel w1 p1 h1 m.id hi1 m hmA
        omega
      · rw [listGetSetOther s.phases w w1 _ (fun he => hw1 he.symm)] at h1
        rw [listGetSetOther s.phases w w2 _ (fun he => hw2 he.symm)] at h2
        exact hinv.distinct w1 w2 p1 p2 hne h1 h2 i hi1
  · have h1 := length_filter_setJob availPred m.id (lockJob w) s.jobs m sjnodup hmem rfl
    rw [hpred, hlockf m] at h1
    simp at h1
    have h2 := countHeld_set s.phases w Phase.idle (Phase.selected m.id) hp
    simp [heldId] at h2
    have hc := hinv.count
    unfold availableJobs at hc
    show (List.filter availPred (setJob s.jobs m.id (lockJob w))).length
        + countHeld (s.phases.set w (Phase.selected m.id))
      = (availableJobs J0).length
    unfold availableJobs
    omega
  · intro w' t h'
    by_cases hww : w' = w
    · rw [hww, listGetSetSame s.phases w (Phase.selected m.id) Phase.idle hp] at h'
      simp at h'
    · rw [listGetSetOther s.phases w w' _ (fun he => hww he.symm)] at h'
      exact hinv.noNone w' t h'
  · intro w' p h' i hi j hj
    rcases avail_setJob_subset s.jobs m.id (lockJob w) hlockf j hj with ⟨hjold, hjne⟩
    by_cases hww : w' = w
    · subst hww
      rw [listGetSetSame s.phases w' (Phase.selected m.id) Phase.idle hp] at h'
      cases h'
      simp only [heldId, Option.some.injEq] at hi
      subst hi
      have := minById_le _ m hm j hjold
      omega
    · rw [listGetSetOther s.phases w w' _ (fun he => hww he.symm)] at h'
      exact hinv.minsel w' p h' i hi j hjold
  · intro j0 hj0 hst hun
    have hm0 : m.id ≠ j0.id := by
      have := hun w (Phase.selected m.id)
        (listGetSetSame s.phases w (Phase.selected m.id) Phase.idle hp)
      simpa [heldId] using this
    have hunold : ∀ w' p, s.phases.get? w' = some p → heldId p ≠ some j0.id := by
      intro w' p h'
      by_cases hww : w' = w
      · rw [hww, hp] at h'
        cases h'
        simp [heldId]
      · exact hun w' p (by
          rw [listGetSetOther s.phases w w' _ (fun he => hww he.symm)]
          exact h')
    rcases hinv.unheld j0 hj0 hst hunold with ⟨j, hj, hjid⟩
    refine ⟨j, ?_, hjid⟩
    apply avail_setJob_keep s.jobs m.id (lockJob w) j hj
    rw [hjid]
    exact fun he => hm0 he.symm

theorem commit_inv (J0 : List Job) (k : Nat) (s : QState) (w : Nat) (jid : Nat)
    (t : ℤ) (hinv : QInv J0 k s) (hp : s.phases.get? w = some (Phase.selected jid)) :
    QInv J0 k { jobs := setJob s.jobs jid (commitJob t),
                phases := s.phases.set w (Phase.finished
                  ((s.jobs.find? fun j => decide (j.id = jid)).map
                    fun j => (j.id, j.jobType, j.payload)) t) } := by
  rcases hinv.sel w jid hp with ⟨js, hjs, hjsid, hjsst, hjslk⟩
  have sjnodup : (s.jobs.map Job.id).Nodup := by
    rw [hinv.ids]
    exact hinv.nodup
  have hfind : s.jobs.find? (fun j => decide (j.id = jid)) = some js := by
    have h := find_by_id s.jobs js sjnodup hjs
    rw [hjsid] at h
    exact h
  have hr : (s.jobs.find? fun j => decide (j.id = jid)).map
      (fun j => (j.id, j.jobType, j.payload)) = some (js.id, js.jobType, js.payload) := by
    rw [hfind]
    rfl
  have hcf : ∀ j, availPred (commitJob t j) = false := by
    intro j
    simp [availPred, commitJob]
  have hpj : availPred js = false := by
    simp [availPred, hjslk]
  refine ⟨?_, hinv.nodup, hinv.noInProg, ?_, ?_, ?_, ?_, ?_, ?_, ?_, ?_, ?_, ?_⟩
  · show (s.phases.set w _).length = k
    rw [List.length_set]
    exact hinv.plen
  · show (setJob s.jobs jid (commitJob t)).map Job.id = J0.map Job.id
    rw [setJob_map_id s.jobs jid (commitJob t) (fun j => rfl)]
    exact hinv.ids
  · exact forall₂_map_left_of_mem _ hinv.jobs_rel (fun a ha b _ hab => by
      by_cases h : a.id = jid
      · rw [if_pos h]
        have haj : a = js := id_unique s.jobs sjnodup a ha js hjs (h.trans hjsid.symm)
        have hst : a.status = JStatus.queued := by
          rw [haj]
          exact hjsst
        rcases hab with ⟨hid, hjt, hpl, hd⟩
        refine ⟨hid, hjt, hpl, Or.inr ⟨?_, rfl⟩⟩
        rcases hd with hd | hd
        · rw [← hd]
          exact hst
        · exact hd.1
      · rw [if_neg h]
        exact hab)
  · intro j hj w' hl
    rcases mem_setJob_inv _ _ _ j hj with ⟨j'', hj'', hup⟩
    by_cases h : j''.id = jid
    · rw [if_pos h] at hup
      subst hup
      simp [commitJob] at hl
    · rw [if_neg h] at hup
      subst hup
      rcases hinv.locks j hj'' w' hl with ⟨hst, hph⟩
      have hwne : w' ≠ w := by
        intro he
        rw [he, hp] at hph
        simp only [Option.some.injEq, Phase.selected.injEq] at hph
        exact h hph.symm
      refine ⟨hst, ?_⟩
      rw [listGetSetOther s.phases w w' _ (Ne.symm hwne)]
      exact hph
  · intro w' jid' h'
    by_cases hww : w' = w
    · rw [hww, listGetSetSame s.phases w _ (Phase.selected jid) hp] at h'
      simp at h'
    · rw [listGetSetOther s.phases w w' _ (fun he => hww he.symm)] at h'
      rcases hinv.sel w' jid' h' with ⟨j, hj, hjid, hjst, hjlk⟩
      have hne : j.id ≠ jid := by
        intro he
        have heq : j = js := id_unique s.jobs sjnodup j hj js hjs (he.trans hjsid.symm)
        rw [heq, hjslk] at hjlk
        simp only [Option.some.injEq] at hjlk
        exact hww hjlk.symm
      exact ⟨j, mem_setJob_self _ _ _ j hj hne, hjid, hjst, hjlk⟩
  · intro w' i jt pl t' h'
    by_cases hww : w' = w
    · rw [hww, listGetSetSame s.phases w _ (Phase.selected jid) hp, hr] at h'
      simp only [Option.some.injEq, Phase.finished.injEq, Prod.mk.injEq] at h'
      rcases h' with ⟨⟨hi, hjt, hpl⟩, ht⟩
      refine ⟨commitJob t js, mem_setJob_target _ _ _ js hjs hjsid, ?_, rfl, ?_, ?_, ?_, rfl⟩
      · exact hi ▸ rfl
      · rw [← ht]
        rfl
      · exact hjt ▸ rfl
      · exact hpl ▸ rfl
    · rw [listGetSetOther s.phases w w' _ (fun he => hww he.symm)] at h'
      rcases hinv.fin w' i jt pl t' h' with ⟨j, hj, hji, hjst, hjup, hjt, hjpl, hjlk⟩
      have hne : j.id ≠ jid := by
        intro he
        have heq : j = js := id_unique s.jobs sjnodup j hj js hjs (he.trans hjsid.symm)
        rw [heq, hjsst] at hjst
        simp at hjst
      exact ⟨j, mem_setJob_self _ _ _ j hj hne, hji, hjst, hjup, hjt, hjpl, hjlk⟩
  · intro w1 w2 p1 p2 hne h1 h2 i hi1
    by_cases hw1 : w1 = w
    · subst hw1
      rw [listGetSetSame s.phases w1 _ (Phase.selected jid) hp] at h1
      cases h1
      rw [hr] at hi1
      simp only [heldId, Option.some.injEq] at hi1
      rw [listGetSetOther s.phases w1 w2 _ hne] at h2
      have hij : i = jid := by rw [← hi1, hjsid]
      subst hij
      exact hinv.distinct w1 w2 (Phase.selected i) p2 hne hp h2 i rfl
    · by_cases hw2 : w2 = w
      · subst hw2
        rw [listGetSetSame s.phases w2 _ (Phase.selected jid) hp] at h2
        cases h2
        rw [listGetSetOther s.phases w2 w1 _ (fun he => hw1 he.symm)] at h1
        rw [hr]
        intro hi2
        simp only [heldId, Option.some.injEq] at hi2
        have hij : i = jid := by rw [← hi2, hjsid]
        subst hij
        exact hinv.distinct w2 w1 (Phase.selected i) p1 (fun he => hne he.symm)
          hp h1 i rfl hi1
      · rw [listGetSetOther s.phases w w1 _ (fun he => hw1 he.symm)] at h1
        rw [listGetSetOther s.phases w w2 _ (fun he => hw2 he.symm)] at h2
        exact hinv.distinct w1 w2 p1 p2 hne h1 h2 i hi1
  · have h1 := length_filter_setJob availPred jid (commitJob t) s.jobs js sjnodup hjs hjsid
    rw [hpj, hcf js] at h1
    simp only [Bool.false_eq_true, if_false, Nat.add_zero] at h1
    have h2 := countHeld_set s.phases w (Phase.selected jid)
      (Phase.finished ((s.jobs.find? fun j => decide (j.id = jid)).map
        fun j => (j.id, j.jobType, j.payload)) t) hp
    rw [hr] at h2
    simp only [heldId, Option.isSome_some, if_true] at h2
    have hc := hinv.count
    unfold availableJobs at hc
    show (List.filter availPred (setJob s.jobs jid (commitJob t))).length
        + countHeld (s.phases.set w (Phase.finished
          ((s.jobs.find? fun j => decide (j.id = jid)).map
            fun j => (j.id, j.jobType, j.payload)) t))
      = (availableJobs J0).length
    unfold availableJobs
    rw [hr]
    omega
  · intro w' t' h'
    by_cases hww : w' = w
    · rw [hww, listGetSetSame s.phases w _ (Phase.selected jid) hp, hr] at h'
      simp at h'
    · rw [listGetSetOther s.phases w w' _ (fun he => hww he.symm)] at h'
      exact hinv.noNone w' t' h'
  · intro w' p h' i hi j hj
    rcases avail_setJob_subset s.jobs jid (commitJob t) hcf j hj with ⟨hjold, hjne⟩
    by_cases hww : w' = w
    · subst hww
      rw [listGetSetSame s.phases w' _ (Phase.selected jid) hp] at h'
      cases h'
      rw [hr] at hi
      simp only [heldId, Option.some.injEq] at hi
      have hij : i = jid := by rw [← hi, hjsid]
      subst hij
      exact hinv.minsel w' (Phase.selected i) hp i rfl j hjold
    · rw [listGetSetOther s.phases w w' _ (fun he => hww he.symm)] at h'
      exact hinv.minsel w' p h' i hi j hjold
  · intro j0 hj0 hst hun
    have hm0 : jid ≠ j0.id := by
      have h := hun w _ (listGetSetSame s.phases w
        (Phase.finished ((s.jobs.find? fun j => decide (j.id = jid)).map
          fun j => (j.id, j.jobType, j.payload)) t) (Phase.selected jid) hp)
      rw [hr] at h
      simp only [heldId, ne_eq, Option.some.injEq] at h
      rw [← hjsid]
      exact h
    have hunold : ∀ w' p, s.phases.get? w' = some p → heldId p ≠ some j0.id := by
      intro w' p h'
      by_cases hww : w' = w
      · rw [hww, hp] at h'
        cases h'
        simp only [heldId, ne_eq, Option.some.injEq]
        exact hm0
      · exact hun w' p (by
          rw [listGetSetOther s.phases w w' _ (fun he => hww he.symm)]
          exact h')
    rcases hinv.unheld j0 hj0 hst hunold with ⟨j, hj, hjid⟩
    refine ⟨j, ?_, hjid⟩
    apply avail_setJob_keep s.jobs jid (commitJob t) j hj
    rw [hjid]
    exact fun he => hm0 he.symm

theorem step_inv (J0 : List Job) (k : Nat) (s : QState) (w : Nat) (t : ℤ)
    (hkn : k ≤ (availableJobs J0).length) (hinv : QInv J0 k s) :
    QInv J0 k (workerStep s w t) := by
  cases hp : s.phases.get? w with
  | none =>
    simp only [workerStep, hp]
    exact hinv
  | some p =>
    cases p with
    | idle =>
      cases hm : minById (availableJobs s.jobs) with
      | none =>
        exfalso
        have hemp : availableJobs s.jobs = [] := minById_eq_none _ hm
        have hc := hinv.count
        rw [hemp] at hc
        simp at hc
        have hlt := countHeld_lt_of_none s.phases w Phase.idle hp rfl
        rw [hinv.plen] at hlt
        omega
      | some m =>
        simp only [workerStep, hp, hm]
        exact select_inv J0 k s w m hinv hp hm
    | selected jid =>
      simp only [workerStep, hp]
      exact commit_inv J0 k s w jid t hinv hp
    | finished r tf =>
      simp only [workerStep, hp]
      exact hinv

theorem runSchedule_inv (J0 : List Job) (k : Nat)
    (hkn : k ≤ (availableJobs J0).length) :
    ∀ (sched : List (Nat × ℤ)) (s : QState), QInv J0 k s →
    QInv J0 k (runSchedule s sched) := by
  intro sched
  induction sched with
  | nil => intro s h; exact h
  | cons e rest ih =>
    intro s h
    cases e with
    | mk w t => exact ih _ (step_inv J0 k s w t hkn h)

/-- C1: for every interleaving in which `k` workers each complete one
`claim_job` call against a table whose queued rows number at least `k`
(ids unique, no row initially locked or `in_progress`), (1) every worker
returns a row (so exactly `min(k, n) = k` rows are handed out);
(2) no row is returned to two workers; (3) each returned triple
`(id, job_type, payload)` is the data of an initially queued row, and that
row ends with status `in_progress` and `updated_at` stamped by the same
atomic commit that returned it; (4) each returned id is lower than the id
of every queued row that no worker claimed. -/
theorem claim1_atomic_claim (J0 : List Job) (k : Nat) (sched : List (Nat × ℤ))
    (hnd : (J0.map Job.id).Nodup)
    (hunlocked : ∀ j ∈ J0, j.lockedBy = none)
    (hnoip : ∀ j ∈ J0, j.status ≠ JStatus.inProgress)
    (hkn : k ≤ (availableJobs J0).length)
    (hdone : ∀ w, w < k → ∃ r t, (runSchedule (initState J0 k) sched).phases.get? w
      = some (Phase.finished r t)) :
    (∀ w, w < k → ∃ i jt pl t, (runSchedule (initState J0 k) sched).phases.get? w
      = some (Phase.finished (some (i, jt, pl)) t)) ∧
    (∀ w1 w2 i1 i2 jt1 jt2 pl1 pl2 t1 t2, w1 ≠ w2 →
      (runSchedule (initState J0 k) sched).phases.get? w1
        = some (Phase.finished (some (i1, jt1, pl1)) t1) →
      (runSchedule (initState J0 k) sched).phases.get? w2
        = some (Phase.finished (some (i2, jt2, pl2)) t2) →
      i1 ≠ i2) ∧
    (∀ w i jt pl t, (runSchedule (initState J0 k) sched).phases.get? w
        = some (Phase.finished (some (i, jt, pl)) t) →
      (∃ j0 ∈ J0, j0.id = i ∧ j0.status = JStatus.queued ∧ j0.jobType = jt ∧
        j0.payload = pl) ∧
      (∃ j ∈ (runSchedule (initState J0 k) sched).jobs, j.id = i ∧
        j.status = JStatus.inProgress ∧ j.updatedAt = t)) ∧
    (∀ w i jt pl t, (runSchedule (initState J0 k) sched).phases.get? w
        = some (Phase.finished (some (i, jt, pl)) t) →
      ∀ j0 ∈ J0, j0.status = JStatus.queued →
      (∀ w' i' jt' pl' t', (runSchedule (initState J0 k) sched).phases.get? w'
          = some (Phase.finished (some (i', jt', pl')) t') → i' ≠ j0.id) →
      i < j0.id) := by
  have hinv := runSchedule_inv J0 k hkn sched _ (init_inv J0 k hnd hunlocked hnoip)
  refine ⟨?_, ?_, ?_, ?_⟩
  · intro w hw
    rcases hdone w hw with ⟨r, t, hph⟩
    cases r with
    | none => exact absurd hph (hinv.noNone w t)
    | some tr =>
      obtain ⟨i, jt, pl⟩ := tr
      exact ⟨i, jt, pl, t, hph⟩
  · intro w1 w2 i1 i2 jt1 jt2 pl1 pl2 t1 t2 hne h1 h2
    have hd := hinv.distinct w1 w2 (Phase.finished (some (i1, jt1, pl1)) t1)
      (Phase.finished (some (i2, jt2, pl2)) t2) hne h1 h2 i1 rfl
    simp only [heldId, ne_eq, Option.some.injEq] at hd
    exact fun he => hd he.symm
  · intro w i jt pl t hph
    rcases hinv.fin w i jt pl t hph with ⟨j, hj, hji, hjst, hjup, hjt, hjpl, _⟩
    constructor
    · rcases forall₂_mem_left hinv.jobs_rel j hj with ⟨j0, hj0, hid, hjt0, hpl0, hdis⟩
      refine ⟨j0, hj0, ?_, ?_, ?_, ?_⟩
      · rw [← hid]
        exact hji
      · rcases hdis with hdis | hdis
        · exfalso
          apply hnoip j0 hj0
          rw [← hdis]
          exact hjst
        · exact hdis.1
      · rw [← hjt0]
        exact hjt
      · rw [← hpl0]
        exact hjpl
    · exact ⟨j, hj, hji, hjst, hjup⟩
  · intro w i jt pl t hph j0 hj0 hst hun
    have hunheld : ∀ w' p,
        (runSchedule (initState J0 k) sched).phases.get? w' = some p →
        heldId p ≠ some j0.id := by
      intro w' p hp'
      have hw' : w' < k := by
        rcases List.get?_eq_some.mp hp' with ⟨hlt, _⟩
        rw [hinv.plen] at hlt
        exact hlt
      rcases hdone w' hw' with ⟨r, t', hph'⟩
      rw [hp'] at hph'
      cases hph'
      cases r with
      | none => exact absurd hp' (hinv.noNone w' t')
      | some tr =>
        obtain ⟨i', jt', pl'⟩ := tr
        simp only [heldId, ne_eq, Option.some.injEq]
        exact hun w' i' jt' pl' t' hp'
    rcases hinv.unheld j0 hj0 hst hunheld with ⟨j, hjav, hjid⟩
    have hlt := hinv.minsel w (Phase.finished (some (i, jt, pl)) t) hph i rfl j hjav
    rw [hjid] at hlt
    exact hlt

/-- Two queued rows (ids 1 and 2), both unlocked. -/
def claimDemoJobs : List Job :=
  [ { id := 1, jobType := ['s'], payload := ['a'], status := JStatus.queued,
      updatedAt := 0, lockedBy := none },
    { id := 2, jobType := ['s'], payload := ['b'], status := JStatus.queued,
      updatedAt := 0, lockedBy := none } ]

/-- Two workers, fully interleaved: both select before either commits. -/
def claimDemoSched : List (Nat × ℤ) := [(0, 10), (1, 11), (0, 12), (1, 13)]

/-- Witness for C1 on a concrete two-worker, two-job interleaving. -/
theorem claim1_atomic_claim_witness :
    (∀ w, w < 2 → ∃ i jt pl t,
      (runSchedule (initState claimDemoJobs 2) claimDemoSched).phases.get? w
        = some (Phase.finished (some (i, jt, pl)) t)) ∧
    (∀ w1 w2 i1 i2 jt1 jt2 pl1 pl2 t1 t2, w1 ≠ w2 →
      (runSchedule (initState claimDemoJobs 2) claimDemoSched).phases.get? w1
        = some (Phase.finished (some (i1, jt1, pl1)) t1) →
      (runSchedule (initState claimDemoJobs 2) claimDemoSched).phases.get? w2
        = some (Phase.finished (some (i2, jt2, pl2)) t2) →
      i1 ≠ i2) ∧
    (∀ w i jt pl t, (runSchedule (initState claimDemoJobs 2) claimDemoSched).phases.get? w
        = some (Phase.finished (some (i, jt, pl)) t) →
      (∃ j0 ∈ claimDemoJobs, j0.id = i ∧ j0.status = JStatus.queued ∧
        j0.jobType = jt ∧ j0.payload = pl) ∧
      (∃ j ∈ (runSchedule (initState claimDemoJobs 2) claimDemoSched).jobs, j.id = i ∧
        j.status = JStatus.inProgress ∧ j.updatedAt = t)) ∧
    (∀ w i jt pl t, (runSchedule (initState claimDemoJobs 2) claimDemoSched).phases.get? w
        = some (Phase.finished (some (i, jt, pl)) t) →
      ∀ j0 ∈ claimDemoJobs, j0.status = JStatus.queued →
      (∀ w' i' jt' pl' t',
        (runSchedule (initState claimDemoJobs 2) claimDemoSched).phases.get? w'
          = some (Phase.finished (some (i', jt', pl')) t') → i' ≠ j0.id) →
      i < j0.id) :=
  claim1_atomic_claim claimDemoJobs 2 claimDemoSched (by decide) (by decide)
    (by decide) (by decide)
    (by
      intro w hw
      match w, hw with
      | 0, _ => exact ⟨some (1, ['s'], ['a']), 12, rfl⟩
      | 1, _ => exact ⟨some (2, ['s'], ['b']), 13, rfl⟩)

end JobQueue
